import Mathlib

/-!
Verification of the translate-to-ja repository (a chunked, multi-stage
draft/critique/refine translation pipeline with bounded concurrency and retry).
The two main variants are src/translate_to_ja.js (callback scheduler,
runWithConcurrency) and src/translate_to_ja.mjs (batch scheduler, App.run);
src/unnamed/part_000 is a single-call variant.  LLM calls are modelled as
opaque oracles; the JavaScript event loop is modelled as a small-step
interpreter driven by an adversarial completion schedule.
-/

set_option linter.unusedVariables false

namespace TranslateToJa

/-! ## Strings: JS substring and case operations -/

/-- Models list-prefix testing used to implement the JS substring check. -/
def listPrefix : List Char → List Char → Bool
  | [], _ => true
  | _ :: _, [] => false
  | a :: as, b :: bs => a == b && listPrefix as bs

/-- Models JS String.prototype.includes: does the needle occur as a
contiguous substring of the haystack (second argument)? -/
def listSub : List Char → List Char → Bool
  | nd, [] => nd.isEmpty
  | nd, b :: t => listPrefix nd (b :: t) || listSub nd t

/-- JS hay.includes(needle) over Lean strings. -/
def includesStr (hay needle : String) : Bool :=
  listSub needle.data hay.data

/-- Models JS String.prototype.toLowerCase on one character (ASCII range;
the marker phrases compared in the sources are ASCII or Japanese, and
Japanese characters are fixed points of toLowerCase). -/
def lowerChar (c : Char) : Char :=
  if 65 ≤ c.toNat ∧ c.toNat ≤ 90 then Char.ofNat (c.toNat + 32) else c

/-- Models JS s.toLowerCase(). -/
def jsToLower (s : String) : String :=
  String.mk (s.data.map lowerChar)

/-- Models JS String.prototype.trim: strips leading and trailing
whitespace (computable over the character list, unlike String.trim). -/
def jsTrim (s : String) : String :=
  String.mk (((s.data.dropWhile Char.isWhitespace).reverse.dropWhile
    Char.isWhitespace).reverse)

/-- Approval-marker test of src/translate_to_ja.js line 143:
critiqueText.toLowerCase().includes("no issues") ||
critiqueText.includes("問題なし"). -/
def jsMarker (critique : String) : Bool :=
  includesStr (jsToLower critique) "no issues" || includesStr critique "問題なし"

/-- Approval-marker test of src/translate_to_ja.mjs line 125:
input.critique.includes("No issues") || input.critique.includes("問題なし"). -/
def mjsMarker (critique : String) : Bool :=
  includesStr critique "No issues" || includesStr critique "問題なし"

/-! ## The per-chunk three-stage pipeline -/

/-- The three LLM-backed stages, as opaque fallible oracles: drafting a
translation, critiquing it, and refining it. -/
structure Oracles where
  draftO : String → Except String String
  critiqueO : String → String → Except String String
  refineO : String → String → String → Except String String

/-- Per-chunk pipeline of src/translate_to_ja.js lines 133-163:
draft, critique, then refine unless the critique contains the approval
marker, in which case the final text is the draft itself. -/
def jsChunkTask (o : Oracles) (text : String) : Except String String := do
  let draft ← o.draftO text
  let critique ← o.critiqueO text draft
  if jsMarker critique then pure draft else o.refineO text draft critique

/-- Result record of the mjs chain (draft, critique, refine fields of the
object returned by TranslationService._buildChain). -/
structure MjsChunkOut where
  draft : String
  critique : String
  refine : String
deriving DecidableEq

/-- Per-chunk chain of src/translate_to_ja.mjs lines 104-146: draft,
critique, then refine; when the critique contains the approval marker the
refine stage is still invoked, but with the critique replaced by the
notice "No changes needed.". -/
def mjsChunkTask (o : Oracles) (text : String) : Except String MjsChunkOut := do
  let d ← o.draftO text
  let c ← o.critiqueO text d
  let r ←
    if mjsMarker c then o.refineO text d "No changes needed."
    else o.refineO text d c
  pure ⟨d, c, r⟩

/-! ## RetryWrapper (withRetry of src/translate_to_ja.mjs lines 65-74) -/

/-- Observable retry events: the console.error report of the failure cause
and the setTimeout wait. -/
inductive REv
  | report (msg : String)
  | wait (ms : Nat)
deriving DecidableEq

/-- Models withRetry of src/translate_to_ja.mjs lines 65-74.  The fallible
operation is indexed by the attempt number; the result carries the final
outcome, the total number of invocations of the operation, and the trace of
report/wait events.  On failure with retries = 0 the error propagates; with
retries > 0 the cause is reported, the current delay waited, and the call
retried with retries - 1 and delay * 2. -/
def withRetryT {α : Type} (fn : Nat → Except String α) :
    Nat → Nat → Nat → Except String α × Nat × List REv
  | attempt, 0, _ =>
    match fn attempt with
    | .ok a => (.ok a, 1, [])
    | .error e => (.error e, 1, [])
  | attempt, r + 1, delay =>
    match fn attempt with
    | .ok a => (.ok a, 1, [])
    | .error e =>
      let sub := withRetryT fn (attempt + 1) r (delay * 2)
      (sub.1, sub.2.1 + 1, REv.report e :: REv.wait delay :: sub.2.2)

/-! ## Chunker

RecursiveCharacterTextSplitter comes from the external package
"@langchain/textsplitters" and is not part of this repository, so the
splitting algorithm is modelled from the spec (section 4.1). -/

/-- Splits a list into consecutive pieces of size at most max k 1,
by repeatedly taking a prefix; fuel-driven so that it is structurally
recursive (fuel = list length always suffices). -/
def chunkEveryAux {α : Type} (k : Nat) : Nat → List α → List (List α)
  | 0, _ => []
  | _, [] => []
  | fuel + 1, a :: l => ((a :: l).take k) :: chunkEveryAux k fuel ((a :: l).drop k)

/-- Character-level fallback splitting: consecutive pieces of at most
max k 1 elements. -/
def chunkEvery {α : Type} (k : Nat) (l : List α) : List (List α) :=
  chunkEveryAux (max k 1) l.length l

/-- Modelled from the spec: finds the first occurrence of the separator,
returning the text before it and the text after it (none when the
separator does not occur). -/
def breakOnAux (sep : List Char) : List Char → Option (List Char × List Char)
  | [] => none
  | c :: rest =>
    if listPrefix sep (c :: rest) then some ([], (c :: rest).drop sep.length)
    else
      match breakOnAux sep rest with
      | none => none
      | some (pre, post) => some (c :: pre, post)

/-- Modelled from the spec: splits at every occurrence of the separator,
keeping the separator attached to the preceding piece so that no character
is dropped.  Fuel-driven; fuel = list length suffices for any non-empty
separator. -/
def splitKeepAux (sep : List Char) : Nat → List Char → List (List Char)
  | 0, l => [l]
  | fuel + 1, l =>
    match breakOnAux sep l with
    | none => [l]
    | some (pre, post) => (pre ++ sep) :: splitKeepAux sep fuel post

/-- Modelled from the spec: splitting on one separator; the empty separator
splits into single characters (JS "abc".split("")). -/
def splitPieces (sep : List Char) (l : List Char) : List (List Char) :=
  if sep.isEmpty then l.map (fun c => [c])
  else splitKeepAux sep l.length l

/-- Modelled from the spec (section 4.1): RecursiveCharacterTextSplitter is
missing from src (external library); the model recursively attempts the
ordered separator list from coarsest to finest, applies the first separator
whose pieces are all within maxSize, and falls back to character-level
splitting when none fits. -/
def recSplit (maxSize : Nat) : List (List Char) → List Char → List (List Char)
  | [], l =>
    if l.length ≤ maxSize then [l] else chunkEvery maxSize l
  | sep :: rest, l =>
    if l.length ≤ maxSize then [l]
    else
      let pieces := splitPieces sep l
      if pieces.all (fun p => p.length ≤ maxSize) then pieces
      else recSplit maxSize rest l

/-- Modelled from the spec: carries the last ov characters of each chunk
over to the start of the next chunk (the overlap). -/
def addOverlapGo (ov : Nat) : List Char → List (List Char) → List (List Char)
  | _, [] => []
  | prev, c :: cs => (prev.drop (prev.length - ov) ++ c) :: addOverlapGo ov c cs

/-- Modelled from the spec: applies the configured overlap to the chunk
sequence (a value of 0 leaves the chunks unchanged). -/
def addOverlap (ov : Nat) : List (List Char) → List (List Char)
  | [] => []
  | c :: cs => c :: addOverlapGo ov c cs

/-- Removes the configured overlap again: every chunk after the first
drops its first ov characters. -/
def removeOverlap (ov : Nat) : List (List Char) → List (List Char)
  | [] => []
  | c :: cs => c :: cs.map (fun p => p.drop ov)

/-- Chunker.split at the String level: recursive separator splitting
followed by the overlap carry-over. -/
def chunkerSplit (maxSize ov : Nat) (seps : List String) (text : String) :
    List String :=
  (addOverlap ov (recSplit maxSize (seps.map String.data) text.data)).map String.mk

/-! ## Configuration constants of the two variants -/

def CONFIG_JS_CHUNK_SIZE : Nat := 1000

def CONFIG_MJS_CHUNK_SIZE : Nat := 1000

def CONFIG_CHUNK_OVERLAP : Nat := 0

def CONFIG_JS_CONCURRENCY : Nat := 4

def CONFIG_MJS_CONCURRENCY : Nat := 3

def CONFIG_MAX_RETRIES : Nat := 3

/-- Separator list of src/translate_to_ja.js lines 93-103. -/
def jsSeparators : List String :=
  ["\n\n", "\n", ". ", "? ", "! ", ".", "?", "!", "。", "！", "？", " ", ""]

/-- Separator list of src/translate_to_ja.mjs line 191. -/
def mjsSeparators : List String :=
  ["\n\n", "\n", ".", "。", "!", "！", "?", "？"]

/-! ## ConcurrencyScheduler of src/translate_to_ja.js (runWithConcurrency)

runWithConcurrency (lines 199-219) spawns limit worker coroutines over a
shared index counter and a shared executing array.  A worker repeatedly:
checks the index against the task count, starts the next task, and when the
executing array has reached the limit, awaits Promise.race of the current
executing array (its snapshot).  When a task's promise resolves, its result
is stored at the task's own index, the task is spliced out of executing,
and every worker whose race snapshot contains it resumes.  The event loop
is modelled as a small-step interpreter; the adversarial schedule picks
which in-flight task completes at each step. -/

/-- Worker coroutine state: suspended on Promise.race over a snapshot of
the executing array, or returned. -/
inductive WStat
  | racing (snap : List Nat)
  | done
deriving DecidableEq

/-- Scheduler state: idx is the shared next-task counter, eg the list of
in-flight task indices (the executing array), ws the worker coroutines and
res the shared results array. -/
structure JsState (α : Type) where
  idx : Nat
  eg : List Nat
  ws : List WStat
  res : List (Option α)
deriving DecidableEq

/-- Runs one worker synchronously until it suspends on Promise.race or
returns: while the index has not reached n, start the next task (push it
on the executing array), then suspend as soon as the executing array has
at least limit entries.  Fuel n always suffices. -/
def runWorkerAux (n limit : Nat) : Nat → Nat → List Nat → WStat × Nat × List Nat
  | 0, idx, eg => (.done, idx, eg)
  | fuel + 1, idx, eg =>
    if n ≤ idx then (.done, idx, eg)
    else
      let eg1 := eg ++ [idx]
      if limit ≤ eg1.length then (.racing eg1, idx + 1, eg1)
      else runWorkerAux n limit fuel (idx + 1) eg1

/-- Resumes, in order, every worker whose race snapshot contains the just
completed task t; each resumed worker runs until its next suspension. -/
def resumeAll (n limit t : Nat) : List WStat → Nat → List Nat → List WStat × Nat × List Nat
  | [], idx, eg => ([], idx, eg)
  | .done :: ws, idx, eg =>
    let s2 := resumeAll n limit t ws idx eg
    (.done :: s2.1, s2.2)
  | .racing snap :: ws, idx, eg =>
    if t ∈ snap then
      let s1 := runWorkerAux n limit n idx eg
      let s2 := resumeAll n limit t ws s1.2.1 s1.2.2
      (s1.1 :: s2.1, s2.2)
    else
      let s2 := resumeAll n limit t ws idx eg
      (.racing snap :: s2.1, s2.2)

/-- The for loop of line 215: spawn k = min limit n workers, each running
synchronously to its first suspension before the next one starts. -/
def initWorkers (n limit : Nat) : Nat → Nat → List Nat → List WStat × Nat × List Nat
  | 0, idx, eg => ([], idx, eg)
  | k + 1, idx, eg =>
    let s1 := runWorkerAux n limit n idx eg
    let s2 := initWorkers n limit k s1.2.1 s1.2.2
    (s1.1 :: s2.1, s2.2)

/-- State of runWithConcurrency right after the spawning loop, before any
task has completed. -/
def initState (α : Type) (n limit : Nat) : JsState α :=
  let s := initWorkers n limit (min limit n) 0 []
  ⟨s.2.1, s.2.2, s.1, List.replicate n none⟩

/-- One event-loop step: the adversary picks in-flight task
t = eg[p % eg.length]; if the task fails its rejection propagates (no
catch inside runWithConcurrency), otherwise the result is stored at index
t, t is spliced out of executing, and the racing workers holding t resume. -/
def jsStep {α : Type} (f : Nat → Except String α) (n limit p : Nat) (s : JsState α) :
    Except String (JsState α) :=
  let t := s.eg.getD (p % s.eg.length) 0
  match f t with
  | .error e => .error e
  | .ok a =>
    let res2 := s.res.set t (some a)
    let eg2 := s.eg.erase t
    let s3 := resumeAll n limit t s.ws s.idx eg2
    .ok ⟨s3.2.1, s3.2.2, s3.1, res2⟩

/-- True when every worker coroutine has returned. -/
def allDone (ws : List WStat) : Bool :=
  ws.all fun w =>
    match w with
    | .done => true
    | _ => false

/-- Drives the scheduler with the given completion schedule.  The function
returns (some result) exactly when runWithConcurrency would settle: a
normal return once all workers are done and executing is empty, or a
rejection as soon as a completed task failed. -/
def jsGo {α : Type} (f : Nat → Except String α) (n limit : Nat) :
    List Nat → JsState α → Option (Except String (List (Option α)))
  | [], s =>
    if s.eg.isEmpty && allDone s.ws then some (.ok s.res) else none
  | p :: rest, s =>
    if s.eg.isEmpty then
      (if allDone s.ws then some (.ok s.res) else none)
    else
      match jsStep f n limit p s with
      | .error e => some (.error e)
      | .ok s2 => jsGo f n limit rest s2

/-- runWithConcurrency under an adversarial completion schedule. -/
def jsRun {α : Type} (f : Nat → Except String α) (n limit : Nat) (sched : List Nat) :
    Option (Except String (List (Option α))) :=
  jsGo f n limit sched (initState α n limit)

/-- Partial run: the state after the given prefix of completion events
(none when a step failed or the run had already settled). -/
def jsSteps {α : Type} (f : Nat → Except String α) (n limit : Nat) :
    List Nat → JsState α → Option (JsState α)
  | [], s => some s
  | p :: rest, s =>
    if s.eg.isEmpty then none
    else
      match jsStep f n limit p s with
      | .error _ => none
      | .ok s2 => jsSteps f n limit rest s2

/-! ## ConcurrencyScheduler of src/translate_to_ja.mjs (App.run batches)

App.run (lines 196-220) pre-sizes a results array, then processes the
chunk list in consecutive batches of CONCURRENCY_LIMIT: each batch is
dispatched together and awaited with Promise.all; each settled chunk
writes its own slot (its catch writes the error marker).  The event trace
(dispatches and completions) is parameterized by a per-batch completion
order. -/

/-- Scheduler events: dispatching chunk i, or chunk i settling. -/
inductive Ev
  | disp (i : Nat)
  | comp (i : Nat)
deriving DecidableEq

/-- The consecutive index batches 0..c-1, c..2c-1, ... of App.run. -/
def batchesL (n c : Nat) : List (List Nat) :=
  chunkEvery c (List.range n)

/-- Events of one batch: all dispatches, then the completions in the
adversarially chosen order. -/
def batchTrace (b ord : List Nat) : List Ev :=
  b.map Ev.disp ++ ord.map Ev.comp

/-- Full event trace of App.run for a given per-batch completion order. -/
def mjsTrace (n c : Nat) (orders : List (List Nat)) : List Ev :=
  (List.zipWith batchTrace (batchesL n c) orders).flatten

/-- A per-batch completion order is valid when it is a permutation of the
corresponding batch. -/
def validOrdersAux : List (List Nat) → List (List Nat) → Bool
  | [], [] => true
  | o :: os, b :: bs => decide (o.Perm b) && validOrdersAux os bs
  | _, _ => false

/-- Validity of an adversarial completion order for n chunks at
concurrency c. -/
def validOrders (n c : Nat) (orders : List (List Nat)) : Bool :=
  validOrdersAux orders (batchesL n c)

/-- Replays the slot writes of a trace over the results array: each
completion of chunk i writes outcome i at index i (App.run lines 207 and
216). -/
def setSlots {α : Type} (out : Nat → α) : List Ev → List (Option α) → List (Option α)
  | [], res => res
  | Ev.disp _ :: tr, res => setSlots out tr res
  | Ev.comp i :: tr, res => setSlots out tr (res.set i (some (out i)))

/-- The results array of App.run after the whole trace. -/
def mjsSlots {α : Type} (out : Nat → α) (n : Nat) (tr : List Ev) : List (Option α) :=
  setSlots out tr (List.replicate n none)

/-- A settled chunk slot: the chain result, or the catch branch's
error-marker object whose refine field is "[Error]". -/
inductive MjsSlot
  | ok (r : MjsChunkOut)
  | errMark
deriving DecidableEq

/-- The refine field read during assembly (results.map(r => r.refine)). -/
def slotRefine : MjsSlot → String
  | .ok r => r.refine
  | .errMark => "[Error]"

/-- Slot outcome of chunk g: the task result, or the error marker when the
task failed with its retries exhausted. -/
def mjsOutcome (task : Nat → Except String MjsChunkOut) (g : Nat) : MjsSlot :=
  match task g with
  | .ok r => MjsSlot.ok r
  | .error _ => MjsSlot.errMark

/-- Checks that the number of in-flight chunks along the trace never
exceeds c (counting dispatches minus completions). -/
def okBound (c : Nat) : List Ev → Nat → Bool
  | [], _ => true
  | Ev.disp _ :: tr, k => decide (k + 1 ≤ c) && okBound c tr (k + 1)
  | Ev.comp _ :: tr, k => okBound c tr (k - 1)

/-- Checks eager dispatch: every completion that happens while some chunk
is still undispatched (d counts dispatches so far, n is the chunk count)
is immediately followed by a dispatch. -/
def eagerOk (n : Nat) : List Ev → Nat → Bool
  | [], _ => true
  | Ev.disp _ :: tr, d => eagerOk n tr (d + 1)
  | Ev.comp _ :: tr, d =>
    if d < n then
      match tr with
      | Ev.disp _ :: _ => eagerOk n tr d
      | _ => false
    else eagerOk n tr d

/-- Completion indices of a trace, in order. -/
def compIdxs (tr : List Ev) : List Nat :=
  tr.filterMap fun e =>
    match e with
    | .comp i => some i
    | .disp _ => none

/-- Invariant of the runWithConcurrency event loop: the results array keeps
its size; every started, no longer in-flight task has its ok-result stored
at its own index; in-flight tasks are started, distinct, and below the
shared counter; a returned worker implies the counter reached n; every
racing snapshot still contains an in-flight task; and every in-flight task
is covered by some racing snapshot unless dispatching is over. -/
structure InvS {α : Type} (f : Nat → Except String α) (n limit : Nat)
    (s : JsState α) : Prop where
  resLen : s.res.length = n
  written : ∀ i, i < s.idx → i ∉ s.eg →
    ∃ a, f i = Except.ok a ∧ s.res.get? i = some (some a)
  egLt : ∀ u ∈ s.eg, u < s.idx
  egNd : s.eg.Nodup
  idxLe : s.idx ≤ n
  wsLen : s.ws.length = min limit n
  doneIdx : ∀ w ∈ s.ws, w = WStat.done → s.idx = n
  racingLive : ∀ S, WStat.racing S ∈ s.ws → ∃ u, u ∈ S ∧ u ∈ s.eg
  cover : ∀ u ∈ s.eg, s.idx = n ∨ ∃ S, WStat.racing S ∈ s.ws ∧ u ∈ S

/-! ## Command surfaces (entry points of the three scripts) -/

/-- Standard-input situations: a TTY, a stream delivering s then ending,
or a stream raising an error. -/
inductive Stdin
  | tty
  | data (s : String)
  | streamErr
deriving DecidableEq

/-- getStdin of src/translate_to_ja.js lines 186-196 and of
src/unnamed/part_000 lines 101-116: a TTY resolves to the empty string, a
normal stream resolves to the trimmed accumulated data, and the error
event handler resolves to the empty string instead of rejecting. -/
def getStdin : Stdin → String
  | .tty => ""
  | .data s => jsTrim s
  | .streamErr => ""

/-- Externally visible actions of a run, in order. -/
inductive Effect
  | errLine (s : String)
  | mkdirE (d : String)
  | translateCall (i : Nat)
  | stdoutWrite (s : String)
deriving DecidableEq

/-- How a run ends: process.exit(code), or a normal return. pending marks
an adversarial schedule that stopped before the event loop drained (a
model artifact, unreachable for full schedules). -/
inductive RunResult
  | exited (code : Nat)
  | finished
  | pending
deriving DecidableEq

/-- Argument scan of src/unnamed/part_000 lines 31-38: the first
--debug-dir or -d flag and its following value are removed from the
argument list only when that value is truthy (a non-empty string), per
the guard debugIndex !== -1 && args[debugIndex + 1]; otherwise nothing is
spliced (the flag stays in the argument list) and no debug directory is
set. -/
def stripDebugFlag : List String → Option String × List String
  | [] => (none, [])
  | a :: rest =>
    if a = "--debug-dir" || a = "-d" then
      match rest with
      | v :: rest2 => if v = "" then (none, a :: v :: rest2) else (some v, rest2)
      | [] => (none, [a])
    else
      let s := stripDebugFlag rest
      (s.1, a :: s.2)

/-- Entry point of src/unnamed/part_000: argument text (after flag
removal) joined by spaces and trimmed, falling back to stdin; empty input
exits 1 with an error message; otherwise one API call whose trimmed answer
goes to stdout, and an API failure exits 1 with Translation Error. -/
def part0Run (rawArgs : List String) (stdin : Stdin)
    (api : String → Except String String) : RunResult × List Effect :=
  let parsed := stripDebugFlag rawArgs
  let t0 := jsTrim (String.intercalate " " parsed.2)
  let inputText := if t0 = "" then getStdin stdin else t0
  if inputText = "" then
    (.exited 1, [.errLine "Error: No input text provided."])
  else
    let pre : List Effect :=
      match parsed.1 with
      | some d => [.mkdirE d]
      | none => []
    match api inputText with
    | .ok out => (.finished, pre ++ [.translateCall 0, .stdoutWrite (jsTrim out)])
    | .error m => (.exited 1, pre ++ [.errLine ("Translation Error: " ++ m)])

/-- Assembly of src/translate_to_ja.js line 167: results.join with a blank
line separator. -/
def jsJoinFinal (res : List (Option String)) : String :=
  String.intercalate "\n\n" (res.map (fun r => r.getD ""))

/-- The tail of program.action around runWithConcurrency: a normal result
is joined and written to stdout, a rejection is caught at lines 174-177
(Fatal Error, process.exit(1)). -/
def jsCatchWrap : Option (Except String (List (Option String))) → RunResult × List Effect
  | some (.error e) => (.exited 1, [.errLine ("Fatal Error: " ++ e)])
  | some (.ok res) =>
    (.finished, (List.range res.length).map .translateCall ++ [.stdoutWrite (jsJoinFinal res)])
  | none => (.pending, [])

/-- program.action of src/translate_to_ja.js lines 68-178: argument text
joined and trimmed, falling back to stdin; empty input exits 1 before any
other work; otherwise the debug directory is created if requested, the
input is chunked, each chunk runs the three-stage pipeline under
runWithConcurrency, and errors land in the Fatal Error catch. -/
def jsActionRun (textArgs : List String) (debugDir : Option String) (stdin : Stdin)
    (o : Oracles) (sched : List Nat) : RunResult × List Effect :=
  let t0 := jsTrim (String.intercalate " " textArgs)
  let inputText := if t0 = "" then getStdin stdin else t0
  if inputText = "" then
    (.exited 1, [.errLine "Error: No input text provided."])
  else
    let pre : List Effect :=
      match debugDir with
      | some d => [.mkdirE d]
      | none => []
    let chunks := chunkerSplit CONFIG_JS_CHUNK_SIZE CONFIG_CHUNK_OVERLAP jsSeparators inputText
    let r := jsCatchWrap
      (jsRun (fun i => jsChunkTask o (chunks.getD i "")) chunks.length CONFIG_JS_CONCURRENCY sched)
    (r.1, pre ++ r.2)

/-- Per-chunk task of src/translate_to_ja.mjs translateChunk: the chain on
the chunk text, wrapped in withRetry with CONFIG.MAX_RETRIES; chainRes
gives the chain outcome per attempt. -/
def mjsTaskOf (chainRes : String → Nat → Except String MjsChunkOut)
    (chunks : List String) (g : Nat) : Except String MjsChunkOut :=
  (withRetryT (chainRes (chunks.getD g "")) 0 CONFIG_MAX_RETRIES 1000).1

/-- App.run of src/translate_to_ja.mjs lines 171-225: banner, debug
directory creation, then the empty-input check (exit 1); otherwise the
input is chunked and processed in batches, each settled slot keeping its
chunk's outcome or the error marker, and the joined refine fields go to
stdout. -/
def mjsAppRun (inputText : String) (debugDir : String)
    (chainRes : String → Nat → Except String MjsChunkOut)
    (orders : List (List Nat)) : RunResult × List Effect :=
  let pre : List Effect :=
    [.errLine ("=== 翻訳開始 (Input Length: " ++ toString inputText.length ++ " chars) ==="),
     .mkdirE debugDir]
  if jsTrim inputText = "" then
    (.exited 1, pre ++ [.errLine "❌ エラー: 入力テキストが空です。"])
  else
    let chunks := chunkerSplit CONFIG_MJS_CHUNK_SIZE CONFIG_CHUNK_OVERLAP mjsSeparators inputText
    let n := chunks.length
    let slots := mjsSlots (mjsOutcome (mjsTaskOf chainRes chunks)) n
      (mjsTrace n CONFIG_MJS_CONCURRENCY orders)
    (.finished,
      pre ++ (List.range n).map .translateCall ++
        [.stdoutWrite (String.intercalate "\n\n" (slots.map (fun s => (s.map slotRefine).getD "")))])

/-! ## Concrete instances used by witnesses and counterexamples -/

/-- Oracle whose critique approves the draft and whose refine stage is a
no-op on the "No changes needed." notice. -/
def oApprove : Oracles :=
  ⟨fun _ => .ok "ドラフト訳",
   fun _ _ => .ok "No issues",
   fun _ d cr => if cr = "No changes needed." then .ok d else .ok ("改稿:" ++ d)⟩

/-- Oracle whose critique lists an issue, so the refine branch runs. -/
def oRevise : Oracles :=
  ⟨fun _ => .ok "下訳",
   fun _ _ => .ok "Fix the rhythm of sentence two.",
   fun _ _ _ => .ok "最終訳"⟩

/-- Oracle whose draft stage fails on the first chunk only: チャンク0 is
unrecoverable, every other chunk succeeds. -/
def oOneFail : Oracles :=
  ⟨fun t => if t = "A" then .error "boom" else .ok "訳",
   fun _ _ => .ok "No issues",
   fun _ d _ => .ok d⟩

/-- Operation that fails on every attempt, with the attempt number as the
failure message. -/
def fnFail : Nat → Except String Nat :=
  fun k => .error (toString k)

/-- Operation that fails on the first two attempts and then succeeds. -/
def fnFlaky : Nat → Except String Nat :=
  fun k => if k = 0 then .error "E0" else if k = 1 then .error "E1" else .ok 42


theorem listPrefix_map {f : Char → Char} :
    ∀ {nd h : List Char}, listPrefix nd h = true →
      listPrefix (nd.map f) (h.map f) = true := by
  intro nd
  induction nd with
  | nil => intro h _; simp [listPrefix]
  | cons a as ih =>
    intro h hp
    cases h with
    | nil => simp [listPrefix] at hp
    | cons b bs =>
      simp only [listPrefix, Bool.and_eq_true, beq_iff_eq] at hp
      simp only [List.map_cons, listPrefix, Bool.and_eq_true, beq_iff_eq]
      exact ⟨by rw [hp.1], ih hp.2⟩

theorem listSub_map {f : Char → Char} {nd h : List Char}
    (hs : listSub nd h = true) : listSub (nd.map f) (h.map f) = true := by
  induction h with
  | nil =>
    simp [listSub, List.isEmpty_iff] at hs
    simp [hs, listSub, List.isEmpty_iff]
  | cons b bs ih =>
    simp only [listSub, Bool.or_eq_true] at hs
    rcases hs with hp | hs
    · simp only [List.map_cons, listSub, Bool.or_eq_true]
      exact Or.inl (by simpa using @listPrefix_map f nd (b :: bs) hp)
    · simp only [List.map_cons, listSub, Bool.or_eq_true]
      exact Or.inr (ih hs)

theorem listPrefix_map_rev {f : Char → Char} :
    ∀ {nd h : List Char}, (∀ x y, y ∈ nd → f x = y → x = y) →
      listPrefix nd (h.map f) = true → listPrefix nd h = true := by
  intro nd
  induction nd with
  | nil => intro h _ _; simp [listPrefix]
  | cons a as ih =>
    intro h hfix hp
    cases h with
    | nil => simp [listPrefix] at hp
    | cons b bs =>
      simp only [List.map_cons, listPrefix, Bool.and_eq_true, beq_iff_eq] at hp
      have hb : b = a := hfix b a (List.mem_cons_self a as) hp.1.symm
      simp only [listPrefix, Bool.and_eq_true, beq_iff_eq]
      refine ⟨hb.symm, ih (fun x y hy => hfix x y (List.mem_cons_of_mem _ hy)) hp.2⟩

theorem listSub_map_rev {f : Char → Char} {nd h : List Char}
    (hfix : ∀ x y, y ∈ nd → f x = y → x = y)
    (hs : listSub nd (h.map f) = true) : listSub nd h = true := by
  induction h with
  | nil => simpa [listSub] using hs
  | cons b bs ih =>
    simp only [List.map_cons, listSub, Bool.or_eq_true] at hs
    rcases hs with hp | hs
    · simp only [listSub, Bool.or_eq_true]
      exact Or.inl (listPrefix_map_rev hfix (by simpa using hp))
    · simp only [listSub, Bool.or_eq_true]
      exact Or.inr (ih hs)

theorem char_toNat_ofNat {n : Nat} (h : n < 55296) : (Char.ofNat n).toNat = n := by
  have hv : n.isValidChar := Or.inl h
  rw [Char.ofNat, dif_pos hv]
  rfl

theorem lowerChar_toNat {c : Char} (h1 : 65 ≤ c.toNat) (h2 : c.toNat ≤ 90) :
    (lowerChar c).toNat = c.toNat + 32 := by
  rw [lowerChar, if_pos ⟨h1, h2⟩]
  exact char_toNat_ofNat (by omega)

theorem lowerChar_idem (c : Char) : lowerChar (lowerChar c) = lowerChar c := by
  by_cases h : 65 ≤ c.toNat ∧ c.toNat ≤ 90
  · have ht : (lowerChar c).toNat = c.toNat + 32 := lowerChar_toNat h.1 h.2
    rw [lowerChar, if_neg]
    rw [ht]
    omega
  · have hc : lowerChar c = c := by rw [lowerChar, if_neg h]
    rw [hc, hc]

theorem lowerChar_fix_of_large {y : Char} (hy : 122 < y.toNat) :
    ∀ x : Char, lowerChar x = y → x = y := by
  intro x hx
  by_cases h : 65 ≤ x.toNat ∧ x.toNat ≤ 90
  · exfalso
    have := lowerChar_toNat h.1 h.2
    rw [hx] at this
    omega
  · rw [lowerChar, if_neg h] at hx
    exact hx

theorem jsToLower_idem (s : String) : jsToLower (jsToLower s) = jsToLower s := by
  simp [jsToLower, List.map_map, Function.comp]
  congr 1
  exact List.map_congr_left (fun c _ => lowerChar_idem c)

theorem data_jsToLower (s : String) : (jsToLower s).data = s.data.map lowerChar := rfl

theorem includes_NoIssues_lower {c : String} (h : includesStr c "No issues" = true) :
    includesStr (jsToLower c) "no issues" = true := by
  have hmap := @listSub_map lowerChar "No issues".data c.data h
  have heq : ("No issues".data).map lowerChar = "no issues".data := by decide
  rw [heq] at hmap
  simpa [includesStr, data_jsToLower] using hmap

theorem jp_fix : ∀ x y : Char, y ∈ "問題なし".data → lowerChar x = y → x = y := by
  intro x y hy hxy
  apply lowerChar_fix_of_large _ x hxy
  have : y ∈ ['問', '題', 'な', 'し'] := hy
  simp only [List.mem_cons, List.not_mem_nil, or_false] at this
  rcases this with h | h | h | h <;> rw [h] <;> decide

theorem includes_jp_lower_iff (c : String) :
    includesStr (jsToLower c) "問題なし" = includesStr c "問題なし" := by
  rcases h : includesStr c "問題なし" with _ | _
  · rcases h2 : includesStr (jsToLower c) "問題なし" with _ | _
    · rfl
    · exfalso
      have := @listSub_map_rev lowerChar "問題なし".data c.data
        jp_fix (by simpa [includesStr, data_jsToLower] using h2)
      rw [includesStr] at h
      rw [this] at h
      exact Bool.noConfusion h
  · have := @listSub_map lowerChar "問題なし".data c.data h
    have heq : ("問題なし".data).map lowerChar = "問題なし".data := by decide
    rw [heq] at this
    simpa [includesStr, data_jsToLower] using this

theorem jsMarker_lower (c : String) : jsMarker (jsToLower c) = jsMarker c := by
  rw [jsMarker, jsMarker, jsToLower_idem, includes_jp_lower_iff]

/-! ## Marker and pipeline theorems (claims C1, C5, C8) -/

theorem jsMarker_of_marker {c : String}
    (hm : includesStr c "No issues" = true ∨ includesStr c "問題なし" = true) :
    jsMarker c = true := by
  rcases hm with h | h
  · simp [jsMarker, includes_NoIssues_lower h]
  · simp [jsMarker, h]

theorem mjsMarker_of_marker {c : String}
    (hm : includesStr c "No issues" = true ∨ includesStr c "問題なし" = true) :
    mjsMarker c = true := by
  rcases hm with h | h <;> simp [mjsMarker, h]

/-- C1: for every chunk whose critique text contains the approval marker
"No issues" or "問題なし" as a substring, the js pipeline skips the
Refine stage entirely (the final text is the draft, whatever the refine
oracle would do), and the mjs pipeline short-circuits through its no-op
refine path: Refine is invoked with the critique replaced by the notice
"No changes needed.", and whenever that no-op invocation returns the
draft, the chunk's final text equals its draft text. -/
theorem claim_C1_approval_means_final_is_draft (o : Oracles) (t d c : String)
    (hd : o.draftO t = .ok d) (hc : o.critiqueO t d = .ok c)
    (hm : includesStr c "No issues" = true ∨ includesStr c "問題なし" = true) :
    (∀ rf, jsChunkTask ⟨o.draftO, o.critiqueO, rf⟩ t = Except.ok d) ∧
    mjsChunkTask o t = (o.refineO t d "No changes needed.").map (fun r => ⟨d, c, r⟩) ∧
    (o.refineO t d "No changes needed." = .ok d → mjsChunkTask o t = Except.ok ⟨d, c, d⟩) := by
  have hjs := jsMarker_of_marker hm
  have hmjs := mjsMarker_of_marker hm
  refine ⟨fun rf => ?_, ?_, fun hnoop => ?_⟩
  · simp [jsChunkTask, hd, hc, hjs, Bind.bind, Except.bind, Pure.pure, Except.pure]
  · rcases hr : o.refineO t d "No changes needed." with e | r <;>
      simp [mjsChunkTask, hd, hc, hmjs, hr, Bind.bind, Except.bind, Pure.pure,
        Except.pure, Except.map]
  · simp [mjsChunkTask, hd, hc, hmjs, hnoop, Bind.bind, Except.bind, Pure.pure, Except.pure]

/-- C1 witness: a concrete oracle whose critique is exactly "No issues"
and whose refine stage is a no-op on the notice; both variants end with
final = draft. -/
theorem claim_C1_approval_means_final_is_draft_witness :
    jsChunkTask oApprove "hello" = Except.ok "ドラフト訳" ∧
    mjsChunkTask oApprove "hello" = Except.ok ⟨"ドラフト訳", "No issues", "ドラフト訳"⟩ :=
  ⟨(claim_C1_approval_means_final_is_draft oApprove "hello" "ドラフト訳" "No issues"
      rfl rfl (Or.inl (by decide))).1 oApprove.refineO,
   (claim_C1_approval_means_final_is_draft oApprove "hello" "ドラフト訳" "No issues"
      rfl rfl (Or.inl (by decide))).2.2 rfl⟩

/-- C5 counterexample: the claim says the approval-marker detection on the
critique text is case-insensitive in the code, but the mjs variant tests
includes("No issues") case-sensitively: a critique differing from the
marker only in letter case is not treated as containing it by mjs (while
the js variant, which lowercases first, does treat it so). -/
theorem claim_C5_counterexample :
    mjsMarker "There are NO ISSUES." = false ∧
    jsMarker "There are NO ISSUES." = true ∧
    mjsMarker "no issues" = false := by
  decide

/-- C5 (amended): the marker detection is a substring match in both
variants and checks the English phrase and the Japanese phrase 問題なし;
the js variant lowercases the critique first, so its detection is
case-insensitive (invariant under any case change of the critique), while
the mjs variant matches "No issues" in that exact case only. -/
theorem claim_C5_marker_detection (c d : String) :
    (includesStr c "No issues" = true → jsMarker c = true ∧ mjsMarker c = true) ∧
    (includesStr c "問題なし" = true → jsMarker c = true ∧ mjsMarker c = true) ∧
    (jsToLower c = jsToLower d → jsMarker c = jsMarker d) := by
  refine ⟨fun h => ⟨jsMarker_of_marker (Or.inl h), mjsMarker_of_marker (Or.inl h)⟩,
    fun h => ⟨jsMarker_of_marker (Or.inr h), mjsMarker_of_marker (Or.inr h)⟩,
    fun h => ?_⟩
  rw [← jsMarker_lower c, h, jsMarker_lower d]

/-- C5 witness: exact-case marker detected by both variants; a critique
differing only in case keeps its js marker status. -/
theorem claim_C5_marker_detection_witness :
    includesStr "Good. No issues found." "No issues" = true ∧
    jsMarker "Good. No issues found." = true ∧
    mjsMarker "Good. No issues found." = true ∧
    jsToLower "NO ISSUES" = jsToLower "no issues" ∧
    jsMarker "NO ISSUES" = jsMarker "no issues" :=
  ⟨by decide,
   ((claim_C5_marker_detection "Good. No issues found." "x").1 (by decide)).1,
   ((claim_C5_marker_detection "Good. No issues found." "x").1 (by decide)).2,
   by decide,
   (claim_C5_marker_detection "NO ISSUES" "no issues").2.2 (by decide)⟩

/-- C8: for every chunk whose critique contains no approval marker (no
case-insensitive "no issues" and no 問題なし), both variants invoke the
Refine stage with the original text, the draft and the critique, and the
chunk's final text is exactly the Refine output. -/
theorem claim_C8_no_marker_invokes_refine (o : Oracles) (t d c r : String)
    (hd : o.draftO t = .ok d) (hc : o.critiqueO t d = .ok c)
    (h1 : includesStr (jsToLower c) "no issues" = false)
    (h2 : includesStr c "問題なし" = false)
    (hr : o.refineO t d c = .ok r) :
    jsChunkTask o t = Except.ok r ∧ mjsChunkTask o t = Except.ok ⟨d, c, r⟩ := by
  have hjs : jsMarker c = false := by simp [jsMarker, h1, h2]
  have hN : includesStr c "No issues" = false := by
    rcases hNo : includesStr c "No issues" with _ | _
    · rfl
    · exact absurd (includes_NoIssues_lower hNo) (by simp [h1])
  have hmjs : mjsMarker c = false := by simp [mjsMarker, hN, h2]
  constructor
  · simp [jsChunkTask, hd, hc, hjs, hr, Bind.bind, Except.bind, Pure.pure, Except.pure]
  · simp [mjsChunkTask, hd, hc, hmjs, hr, Bind.bind, Except.bind, Pure.pure, Except.pure]

/-- C8 witness: a concrete critique with an issue; both variants return
the refine output, not the draft. -/
theorem claim_C8_no_marker_invokes_refine_witness :
    jsChunkTask oRevise "hello" = Except.ok "最終訳" ∧
    mjsChunkTask oRevise "hello" = Except.ok ⟨"下訳", "Fix the rhythm of sentence two.", "最終訳"⟩ :=
  claim_C8_no_marker_invokes_refine oRevise "hello" "下訳" "Fix the rhythm of sentence two."
    "最終訳" rfl rfl (by decide) (by decide) rfl

/-! ## RetryWrapper theorems (claim C6) -/

theorem withRetryT_alwaysFail {α : Type} (fn : Nat → Except String α) (m : Nat → String)
    (hf : ∀ k, fn k = .error (m k)) :
    ∀ r attempt delay, (withRetryT fn attempt r delay).1 = .error (m (attempt + r)) ∧
      (withRetryT fn attempt r delay).2.1 = r + 1 := by
  intro r
  induction r with
  | zero =>
    intro attempt delay
    simp [withRetryT, hf attempt]
  | succ r ih =>
    intro attempt delay
    have hsub := ih (attempt + 1) (delay * 2)
    simp only [withRetryT, hf attempt]
    constructor
    · rw [hsub.1]
      congr 2
      omega
    · rw [hsub.2]

/-- C6: the retry wrapper, given a fallible operation: on a failure with
remaining retries greater than 0 it reports the cause, waits the current
delay, and retries with remaining decremented and the delay doubled; on a
failure with remaining retries 0 it propagates the failure; an operation
that always fails run with maxRetries = 2 is invoked exactly 3 times and
its final failure propagates; an operation that fails twice then succeeds,
run with maxRetries = 3, returns the success after exactly 2 retries with
doubling delays. -/
theorem claim_C6_retry_backoff {α : Type} (fn : Nat → Except String α)
    (m : Nat → String) (e0 e1 : String) (a : α) (d : Nat) :
    (∀ attempt delay r e, fn attempt = .error e →
      withRetryT fn attempt (r + 1) delay =
        ((withRetryT fn (attempt + 1) r (delay * 2)).1,
         (withRetryT fn (attempt + 1) r (delay * 2)).2.1 + 1,
         REv.report e :: REv.wait delay :: (withRetryT fn (attempt + 1) r (delay * 2)).2.2)) ∧
    (∀ e delay, fn 0 = .error e → withRetryT fn 0 0 delay = (.error e, 1, [])) ∧
    ((∀ k, fn k = .error (m k)) →
      (withRetryT fn 0 2 d).1 = .error (m 2) ∧ (withRetryT fn 0 2 d).2.1 = 3) ∧
    (fn 0 = .error e0 → fn 1 = .error e1 → fn 2 = .ok a →
      withRetryT fn 0 3 d =
        (.ok a, 3, [REv.report e0, REv.wait d, REv.report e1, REv.wait (d * 2)])) := by
  refine ⟨fun attempt delay r e he => ?_, fun e delay he => ?_, fun hf => ?_, fun h0 h1 h2 => ?_⟩
  · simp [withRetryT, he]
  · simp [withRetryT, he]
  · simpa using withRetryT_alwaysFail fn m hf 2 0 d
  · simp [withRetryT, h0, h1, h2]

/-- C6 witness: the always-failing operation with maxRetries = 2 is
invoked 3 times; the fails-twice-then-succeeds operation with
maxRetries = 3 returns the success with delays 1000 then 2000. -/
theorem claim_C6_retry_backoff_witness :
    (withRetryT fnFail 0 2 1000).1 = .error "2" ∧
    (withRetryT fnFail 0 2 1000).2.1 = 3 ∧
    withRetryT fnFlaky 0 3 1000 =
      (.ok 42, 3, [REv.report "E0", REv.wait 1000, REv.report "E1", REv.wait 2000]) :=
  ⟨((claim_C6_retry_backoff fnFail toString "x" "y" 0 1000).2.2.1 (fun _ => rfl)).1,
   ((claim_C6_retry_backoff fnFail toString "x" "y" 0 1000).2.2.1 (fun _ => rfl)).2,
   by
    have := (claim_C6_retry_backoff fnFlaky toString "E0" "E1" 42 1000).2.2.2 rfl rfl rfl
    simpa using this⟩

/-! ## Chunker theorems (claim C7) -/

theorem chunkEveryAux_flatten {α : Type} {k : Nat} (hk : 1 ≤ k) :
    ∀ fuel (l : List α), l.length ≤ fuel → (chunkEveryAux k fuel l).flatten = l := by
  intro fuel
  induction fuel with
  | zero =>
    intro l hl
    have : l = [] := List.eq_nil_of_length_eq_zero (Nat.le_zero.mp hl)
    subst this
    simp [chunkEveryAux]
  | succ fuel ih =>
    intro l hl
    cases l with
    | nil => simp [chunkEveryAux]
    | cons a t =>
      simp only [chunkEveryAux, List.flatten_cons]
      rw [ih ((a :: t).drop k)
        (by rw [List.length_drop]; simp only [List.length_cons] at hl ⊢; omega)]
      exact List.take_append_drop k (a :: t)

theorem chunkEvery_flatten {α : Type} (k : Nat) (l : List α) :
    (chunkEvery k l).flatten = l :=
  chunkEveryAux_flatten (le_max_right k 1) l.length l le_rfl

theorem chunkEvery_ne_nil {α : Type} (k : Nat) {l : List α} (h : l ≠ []) :
    chunkEvery k l ≠ [] := by
  cases l with
  | nil => exact absurd rfl h
  | cons a t => simp [chunkEvery, chunkEveryAux]

theorem listPrefix_take {nd h : List Char} (hp : listPrefix nd h = true) :
    h = nd ++ h.drop nd.length := by
  induction nd generalizing h with
  | nil => simp
  | cons a as ih =>
    cases h with
    | nil => simp [listPrefix] at hp
    | cons b bs =>
      simp only [listPrefix, Bool.and_eq_true, beq_iff_eq] at hp
      simp only [List.cons_append, List.length_cons, List.drop_succ_cons]
      rw [hp.1, ← ih hp.2]

theorem breakOnAux_eq {sep : List Char} :
    ∀ {l pre post : List Char}, breakOnAux sep l = some (pre, post) →
      l = pre ++ sep ++ post := by
  intro l
  induction l with
  | nil => intro pre post h; simp [breakOnAux] at h
  | cons c rest ih =>
    intro pre post h
    rw [breakOnAux] at h
    by_cases hp : listPrefix sep (c :: rest) = true
    · rw [if_pos hp] at h
      injection h with h
      injection h with h1 h2
      subst h1
      subst h2
      simpa using listPrefix_take hp
    · rw [if_neg hp] at h
      rcases hb : breakOnAux sep rest with _ | pq
      · rw [hb] at h; exact absurd h (by simp)
      · rw [hb] at h
        rcases pq with ⟨p1, p2⟩
        simp only [Option.some.injEq, Prod.mk.injEq] at h
        rcases h with ⟨h1, h2⟩
        subst h2
        rw [← h1]
        simpa using congrArg (fun x => c :: x) (ih hb)

theorem splitKeepAux_flatten (sep : List Char) :
    ∀ fuel l, (splitKeepAux sep fuel l).flatten = l := by
  intro fuel
  induction fuel with
  | zero => intro l; simp [splitKeepAux]
  | succ fuel ih =>
    intro l
    rw [splitKeepAux]
    rcases hb : breakOnAux sep l with _ | pq
    · simp
    · rcases pq with ⟨pre, post⟩
      simp only [List.flatten_cons, ih post]
      have := breakOnAux_eq hb
      rw [this]

theorem splitPieces_flatten (sep l : List Char) : (splitPieces sep l).flatten = l := by
  rw [splitPieces]
  by_cases hs : sep.isEmpty
  · rw [if_pos hs]
    induction l with
    | nil => simp
    | cons a t iht => simpa using iht
  · rw [if_neg hs]
    exact splitKeepAux_flatten sep l.length l

theorem splitPieces_ne_nil (sep : List Char) {l : List Char} (h : l ≠ []) :
    splitPieces sep l ≠ [] := by
  rw [splitPieces]
  by_cases hs : sep.isEmpty
  · rw [if_pos hs]
    simpa using h
  · rw [if_neg hs]
    cases hf : l.length with
    | zero => simp [splitKeepAux]
    | succ m =>
      rw [splitKeepAux]
      rcases breakOnAux sep l with _ | ⟨pre, post⟩ <;> simp

theorem recSplit_flatten (maxSize : Nat) :
    ∀ seps l, (recSplit maxSize seps l).flatten = l := by
  intro seps
  induction seps with
  | nil =>
    intro l
    rw [recSplit]
    by_cases h : l.length ≤ maxSize
    · rw [if_pos h]; simp
    · rw [if_neg h]; exact chunkEvery_flatten maxSize l
  | cons sep rest ih =>
    intro l
    rw [recSplit]
    by_cases h : l.length ≤ maxSize
    · rw [if_pos h]; simp
    · rw [if_neg h]
      by_cases hall : (splitPieces sep l).all (fun p => p.length ≤ maxSize)
      · simp only [hall, if_true]
        exact splitPieces_flatten sep l
      · simp only [hall]
        simpa using ih l

theorem recSplit_ne_nil (maxSize : Nat) :
    ∀ seps l, recSplit maxSize seps l ≠ [] := by
  intro seps
  induction seps with
  | nil =>
    intro l
    rw [recSplit]
    by_cases h : l.length ≤ maxSize
    · rw [if_pos h]; simp
    · rw [if_neg h]
      exact chunkEvery_ne_nil maxSize (by intro hl; subst hl; simp at h)
  | cons sep rest ih =>
    intro l
    rw [recSplit]
    by_cases h : l.length ≤ maxSize
    · rw [if_pos h]; simp
    · rw [if_neg h]
      by_cases hall : (splitPieces sep l).all (fun p => p.length ≤ maxSize)
      · simp only [hall, if_true]
        exact splitPieces_ne_nil sep (by intro hl; subst hl; simp at h)
      · simp only [hall]
        simpa using ih l

theorem addOverlapGo_zero (prev : List Char) (cs : List (List Char)) :
    addOverlapGo 0 prev cs = cs := by
  induction cs generalizing prev with
  | nil => rfl
  | cons c t ih => simp [addOverlapGo, ih]

theorem addOverlap_zero (cs : List (List Char)) : addOverlap 0 cs = cs := by
  cases cs with
  | nil => rfl
  | cons c t => simp [addOverlap, addOverlapGo_zero]

theorem removeOverlap_zero (cs : List (List Char)) : removeOverlap 0 cs = cs := by
  cases cs with
  | nil => rfl
  | cons c t => simp [removeOverlap]

/-- C7: for every non-empty input, the chunker (modelled from the spec;
RecursiveCharacterTextSplitter is an external library) produces at least
one chunk, and concatenating the chunks in order with the configured
overlap (CHUNK_OVERLAP = 0 in both variants) removed reconstructs the
input exactly, so no character is dropped or reordered. -/
theorem claim_C7_chunker_reconstructs (seps : List String) (maxSize : Nat)
    (text : String) (hne : text.data ≠ []) :
    chunkerSplit maxSize CONFIG_CHUNK_OVERLAP seps text ≠ [] ∧
    (removeOverlap CONFIG_CHUNK_OVERLAP
        ((chunkerSplit maxSize CONFIG_CHUNK_OVERLAP seps text).map String.data)).flatten
      = text.data := by
  have hdata : (chunkerSplit maxSize CONFIG_CHUNK_OVERLAP seps text).map String.data
      = recSplit maxSize (seps.map String.data) text.data := by
    rw [chunkerSplit]
    show (((addOverlap 0 (recSplit maxSize (seps.map String.data) text.data)).map
        String.mk).map String.data) = _
    rw [addOverlap_zero, List.map_map]
    exact List.map_id'' (fun l => rfl) _
  constructor
  · rw [chunkerSplit]
    show ((addOverlap 0 (recSplit maxSize (seps.map String.data) text.data)).map String.mk) ≠ []
    rw [addOverlap_zero]
    simpa using recSplit_ne_nil maxSize (seps.map String.data) text.data
  · rw [hdata]
    show (removeOverlap 0 (recSplit maxSize (seps.map String.data) text.data)).flatten = _
    rw [removeOverlap_zero]
    exact recSplit_flatten maxSize (seps.map String.data) text.data

/-- C7 witness: the chunker at chunk size 10 over the js separator list,
on the spec's example sentence. -/
theorem claim_C7_chunker_reconstructs_witness :
    "Hello. This is a test.".data ≠ [] ∧
    chunkerSplit 10 CONFIG_CHUNK_OVERLAP jsSeparators "Hello. This is a test." ≠ [] ∧
    (removeOverlap CONFIG_CHUNK_OVERLAP
        ((chunkerSplit 10 CONFIG_CHUNK_OVERLAP jsSeparators "Hello. This is a test.").map
          String.data)).flatten
      = "Hello. This is a test.".data :=
  ⟨by decide,
   (claim_C7_chunker_reconstructs jsSeparators 10 "Hello. This is a test." (by decide)).1,
   (claim_C7_chunker_reconstructs jsSeparators 10 "Hello. This is a test." (by decide)).2⟩

/-! ## Input-validation theorems (claims C9, C10) -/

/-- C9: empty or missing input (no argument text and empty stdin) is a
fatal input error in all three entry points: an error message is reported
and the process exits with status 1 without invoking any translation stage
and without writing anything to stdout.  (The mjs variant prints its
banner and creates the debug directory before the check; it too performs
no translation work and produces no output.) -/
theorem claim_C9_empty_input_fatal
    (rawArgs textArgs : List String) (stdin : Stdin) (debugDir : Option String)
    (o : Oracles) (sched : List Nat) (api : String → Except String String)
    (inputText dd : String) (chainRes : String → Nat → Except String MjsChunkOut)
    (orders : List (List Nat))
    (hargs0 : jsTrim (String.intercalate " " (stripDebugFlag rawArgs).2) = "")
    (hargs1 : jsTrim (String.intercalate " " textArgs) = "")
    (hstdin : getStdin stdin = "")
    (hinput : jsTrim inputText = "") :
    part0Run rawArgs stdin api =
      (.exited 1, [.errLine "Error: No input text provided."]) ∧
    jsActionRun textArgs debugDir stdin o sched =
      (.exited 1, [.errLine "Error: No input text provided."]) ∧
    mjsAppRun inputText dd chainRes orders =
      (.exited 1,
        [.errLine ("=== 翻訳開始 (Input Length: " ++ toString inputText.length ++ " chars) ==="),
         .mkdirE dd, .errLine "❌ エラー: 入力テキストが空です。"]) ∧
    (∀ i, Effect.translateCall i ∉ (mjsAppRun inputText dd chainRes orders).2) ∧
    (∀ s, Effect.stdoutWrite s ∉ (mjsAppRun inputText dd chainRes orders).2) := by
  have h0 : part0Run rawArgs stdin api =
      (.exited 1, [.errLine "Error: No input text provided."]) := by
    simp only [part0Run, hargs0, hstdin, if_pos rfl, ite_self]
    simp
  have h1 : jsActionRun textArgs debugDir stdin o sched =
      (.exited 1, [.errLine "Error: No input text provided."]) := by
    simp only [jsActionRun, hargs1, hstdin, if_pos rfl, ite_self]
    simp
  have h2 : mjsAppRun inputText dd chainRes orders =
      (.exited 1,
        [.errLine ("=== 翻訳開始 (Input Length: " ++ toString inputText.length ++ " chars) ==="),
         .mkdirE dd, .errLine "❌ エラー: 入力テキストが空です。"]) := by
    simp only [mjsAppRun, hinput, if_pos rfl]
    simp
  refine ⟨h0, h1, h2, fun i => ?_, fun s => ?_⟩
  · rw [h2]; simp
  · rw [h2]; simp

/-- C9 witness: no arguments, whitespace-only stdin and input text. -/
theorem claim_C9_empty_input_fatal_witness :
    part0Run [] (.data "  ") (fun t => .ok t) =
      (.exited 1, [.errLine "Error: No input text provided."]) ∧
    jsActionRun [] none (.data "  ") oApprove [] =
      (.exited 1, [.errLine "Error: No input text provided."]) ∧
    mjsAppRun " " "outputs/work_translate" (fun _ _ => .error "unused") [] =
      (.exited 1,
        [.errLine ("=== 翻訳開始 (Input Length: " ++ toString (" " : String).length ++ " chars) ==="),
         .mkdirE "outputs/work_translate",
         .errLine "❌ エラー: 入力テキストが空です。"]) :=
  ⟨(claim_C9_empty_input_fatal [] [] (.data "  ") none oApprove [] (fun t => .ok t)
      " " "outputs/work_translate" (fun _ _ => .error "unused") []
      (by decide) (by decide) (by decide) (by decide)).1,
   (claim_C9_empty_input_fatal [] [] (.data "  ") none oApprove [] (fun t => .ok t)
      " " "outputs/work_translate" (fun _ _ => .error "unused") []
      (by decide) (by decide) (by decide) (by decide)).2.1,
   (claim_C9_empty_input_fatal [] [] (.data "  ") none oApprove [] (fun t => .ok t)
      " " "outputs/work_translate" (fun _ _ => .error "unused") []
      (by decide) (by decide) (by decide) (by decide)).2.2.1⟩

/-- C10: the stdin error handler of getStdin (js and part_000 variants)
resolves to the empty string instead of rejecting, so a run whose only
input source is a failing stdin stream behaves exactly like a run with
empty input: it prints "Error: No input text provided." and exits with
status 1, and is not classified as a fatal or unexpected error. -/
theorem claim_C10_stdin_error_treated_as_empty
    (rawArgs textArgs : List String) (debugDir : Option String)
    (o : Oracles) (sched : List Nat) (api : String → Except String String)
    (hargs0 : jsTrim (String.intercalate " " (stripDebugFlag rawArgs).2) = "")
    (hargs1 : jsTrim (String.intercalate " " textArgs) = "") :
    getStdin .streamErr = "" ∧
    part0Run rawArgs .streamErr api = part0Run rawArgs (.data "") api ∧
    part0Run rawArgs .streamErr api =
      (.exited 1, [.errLine "Error: No input text provided."]) ∧
    jsActionRun textArgs debugDir .streamErr o sched =
      jsActionRun textArgs debugDir (.data "") o sched ∧
    jsActionRun textArgs debugDir .streamErr o sched =
      (.exited 1, [.errLine "Error: No input text provided."]) := by
  have h0 : part0Run rawArgs .streamErr api =
      (.exited 1, [.errLine "Error: No input text provided."]) := by
    simp only [part0Run, hargs0, getStdin, if_pos rfl, ite_self]
    simp
  have h0b : part0Run rawArgs (.data "") api =
      (.exited 1, [.errLine "Error: No input text provided."]) := by
    simp only [part0Run, hargs0, getStdin, if_pos rfl, ite_self]
    simp [jsTrim]
  have h1 : jsActionRun textArgs debugDir .streamErr o sched =
      (.exited 1, [.errLine "Error: No input text provided."]) := by
    simp only [jsActionRun, hargs1, getStdin, if_pos rfl, ite_self]
    simp
  have h1b : jsActionRun textArgs debugDir (.data "") o sched =
      (.exited 1, [.errLine "Error: No input text provided."]) := by
    simp only [jsActionRun, hargs1, getStdin, if_pos rfl, ite_self]
    simp [jsTrim]
  exact ⟨rfl, h0.trans h0b.symm, h0, h1.trans h1b.symm, h1⟩

/-- C10 witness: failing stdin with no arguments behaves as empty input in
both the js entry point and part_000. -/
theorem claim_C10_stdin_error_treated_as_empty_witness :
    part0Run [] .streamErr (fun t => .ok t) =
      (.exited 1, [.errLine "Error: No input text provided."]) ∧
    jsActionRun [] none .streamErr oApprove [] =
      (.exited 1, [.errLine "Error: No input text provided."]) :=
  ⟨(claim_C10_stdin_error_treated_as_empty [] [] none oApprove [] (fun t => .ok t)
      (by decide) (by decide)).2.2.1,
   (claim_C10_stdin_error_treated_as_empty [] [] none oApprove [] (fun t => .ok t)
      (by decide) (by decide)).2.2.2.2⟩

/-! ## runWithConcurrency: event-loop invariants (claims C2, C3, C4) -/

theorem runWorkerAux_spec (n limit : Nat) :
    ∀ fuel idx eg w idx1 eg1, runWorkerAux n limit fuel idx eg = (w, idx1, eg1) →
      n - idx ≤ fuel → idx ≤ n →
      idx ≤ idx1 ∧ idx1 ≤ n ∧ eg1 = eg ++ List.range' idx (idx1 - idx) ∧
      (w = WStat.done → idx1 = n) ∧
      (∀ S, w = WStat.racing S → S = eg1 ∧ limit ≤ eg1.length) ∧
      (idx < n → idx < idx1) := by
  intro fuel
  induction fuel with
  | zero =>
    intro idx eg w idx1 eg1 h hfuel hle
    have hidx : idx = n := by omega
    rw [runWorkerAux] at h
    injection h with h1 h2
    injection h2 with h2 h3
    subst h1
    subst h2
    subst h3
    refine ⟨le_rfl, hle, by simp, fun _ => hidx, fun S hS => WStat.noConfusion hS, ?_⟩
    omega
  | succ fuel ih =>
    intro idx eg w idx1 eg1 h hfuel hle
    rw [runWorkerAux] at h
    by_cases hn : n ≤ idx
    · rw [if_pos hn] at h
      have hidx : idx = n := le_antisymm hle hn
      injection h with h1 h2
      injection h2 with h2 h3
      subst h1
      subst h2
      subst h3
      refine ⟨le_rfl, hle, by simp, fun _ => hidx, fun S hS => WStat.noConfusion hS, ?_⟩
      omega
    · rw [if_neg hn] at h
      push_neg at hn
      by_cases hl : limit ≤ (eg ++ [idx]).length
      · simp only [hl, if_true] at h
        injection h with h1 h2
        injection h2 with h2 h3
        subst h1
        subst h2
        subst h3
        refine ⟨Nat.le_succ idx, hn, ?_, fun hd => WStat.noConfusion hd, fun S hS => ?_, ?_⟩
        · simp [List.range'_one]
        · injection hS with hS
          subst hS
          exact ⟨rfl, hl⟩
        · omega
      · simp only [hl, if_false] at h
        obtain ⟨ha, hb, hc, hd, he, hf⟩ :=
          ih (idx + 1) (eg ++ [idx]) w idx1 eg1 h (by omega) (by omega)
        refine ⟨by omega, hb, ?_, hd, ?_, ?_⟩
        · rw [hc, List.append_assoc]
          congr 1
          have hk : idx1 - idx = (idx1 - (idx + 1)) + 1 := by omega
          rw [hk, List.range'_succ]
          rfl
        · intro S hS
          exact he S hS
        · intro _
          omega

theorem range'_compose (s m k : Nat) :
    List.range' s m ++ List.range' (s + m) k = List.range' s (m + k) := by
  rw [Nat.add_comm m k]
  simpa using List.range'_append s m k 1

theorem resumeAll_shape (n limit t : Nat) :
    ∀ ws idx eg ws1 idx1 eg1, resumeAll n limit t ws idx eg = (ws1, idx1, eg1) →
      idx ≤ n →
      idx ≤ idx1 ∧ idx1 ≤ n ∧ eg1 = eg ++ List.range' idx (idx1 - idx) ∧
      ws1.length = ws.length := by
  intro ws
  induction ws with
  | nil =>
    intro idx eg ws1 idx1 eg1 h hle
    rw [resumeAll] at h
    injection h with h1 h2
    injection h2 with h2 h3
    subst h1
    subst h2
    subst h3
    exact ⟨le_rfl, hle, by simp, rfl⟩
  | cons w ws ih =>
    intro idx eg ws1 idx1 eg1 h hle
    cases w with
    | done =>
      rw [resumeAll] at h
      rcases hra : resumeAll n limit t ws idx eg with ⟨ws2, idx2, eg2⟩
      simp only [hra] at h
      injection h with h1 h2
      injection h2 with h2 h3
      subst h1
      subst h2
      subst h3
      obtain ⟨a, b, c, d⟩ := ih idx eg ws2 idx2 eg2 hra hle
      exact ⟨a, b, c, by simp [d]⟩
    | racing snap =>
      rw [resumeAll] at h
      by_cases ht : t ∈ snap
      · rw [if_pos ht] at h
        rcases hrw : runWorkerAux n limit n idx eg with ⟨w0, idx0, eg0⟩
        rcases hra : resumeAll n limit t ws idx0 eg0 with ⟨ws2, idx2, eg2⟩
        simp only [hrw, hra] at h
        injection h with h1 h2
        injection h2 with h2 h3
        subst h1
        subst h2
        subst h3
        obtain ⟨a0, b0, c0, _, _, _⟩ :=
          runWorkerAux_spec n limit n idx eg w0 idx0 eg0 hrw (by omega) hle
        obtain ⟨a, b, c, d⟩ := ih idx0 eg0 ws2 idx2 eg2 hra b0
        refine ⟨le_trans a0 a, b, ?_, by simp [d]⟩
        have hcomp := range'_compose idx (idx0 - idx) (idx2 - idx0)
        have he1 : idx + (idx0 - idx) = idx0 := by omega
        have he2 : idx0 - idx + (idx2 - idx0) = idx2 - idx := by omega
        rw [he1, he2] at hcomp
        rw [c, c0, List.append_assoc, hcomp]
      · rw [if_neg ht] at h
        rcases hra : resumeAll n limit t ws idx eg with ⟨ws2, idx2, eg2⟩
        simp only [hra] at h
        injection h with h1 h2
        injection h2 with h2 h3
        subst h1
        subst h2
        subst h3
        obtain ⟨a, b, c, d⟩ := ih idx eg ws2 idx2 eg2 hra hle
        exact ⟨a, b, c, by simp [d]⟩

theorem resumeAll_done (n limit t : Nat) :
    ∀ ws idx eg ws1 idx1 eg1, resumeAll n limit t ws idx eg = (ws1, idx1, eg1) →
      idx ≤ n → (∀ w ∈ ws, w = WStat.done → idx = n) →
      ∀ w ∈ ws1, w = WStat.done → idx1 = n := by
  intro ws
  induction ws with
  | nil =>
    intro idx eg ws1 idx1 eg1 h hle hd
    rw [resumeAll] at h
    injection h with h1 h2
    injection h2 with h2 h3
    subst h1
    subst h2
    subst h3
    intro w hw
    simp at hw
  | cons w ws ih =>
    intro idx eg ws1 idx1 eg1 h hle hd
    cases w with
    | done =>
      have hidx : idx = n := hd WStat.done (List.mem_cons_self _ _) rfl
      rw [resumeAll] at h
      rcases hra : resumeAll n limit t ws idx eg with ⟨ws2, idx2, eg2⟩
      simp only [hra] at h
      injection h with h1 h2
      injection h2 with h2 h3
      subst h1
      subst h2
      subst h3
      obtain ⟨a, b, _, _⟩ := resumeAll_shape n limit t ws idx eg ws2 idx2 eg2 hra hle
      intro _ _ _
      omega
    | racing snap =>
      rw [resumeAll] at h
      by_cases ht : t ∈ snap
      · rw [if_pos ht] at h
        rcases hrw : runWorkerAux n limit n idx eg with ⟨w0, idx0, eg0⟩
        rcases hra : resumeAll n limit t ws idx0 eg0 with ⟨ws2, idx2, eg2⟩
        simp only [hrw, hra] at h
        injection h with h1 h2
        injection h2 with h2 h3
        subst h1
        subst h2
        subst h3
        obtain ⟨a0, b0, _, hd0, _, _⟩ :=
          runWorkerAux_spec n limit n idx eg w0 idx0 eg0 hrw (by omega) hle
        obtain ⟨a, b, _, _⟩ := resumeAll_shape n limit t ws idx0 eg0 ws2 idx2 eg2 hra b0
        intro w hw hwd
        rcases List.mem_cons.mp hw with hw0 | hwt
        · subst hw0
          have := hd0 hwd
          omega
        · exact ih idx0 eg0 ws2 idx2 eg2 hra b0
            (fun w2 hw2 hw2d => by
              have := hd w2 (List.mem_cons_of_mem _ hw2) hw2d
              omega) w hwt hwd
      · rw [if_neg ht] at h
        rcases hra : resumeAll n limit t ws idx eg with ⟨ws2, idx2, eg2⟩
        simp only [hra] at h
        injection h with h1 h2
        injection h2 with h2 h3
        subst h1
        subst h2
        subst h3
        intro w hw hwd
        rcases List.mem_cons.mp hw with hw0 | hwt
        · subst hw0
          exact absurd hwd (by simp)
        · exact ih idx eg ws2 idx2 eg2 hra hle
            (fun w2 hw2 hw2d => hd w2 (List.mem_cons_of_mem _ hw2) hw2d) w hwt hwd

theorem resumeAll_racing (n limit t : Nat) :
    ∀ ws idx eg ws1 idx1 eg1, resumeAll n limit t ws idx eg = (ws1, idx1, eg1) →
      idx ≤ n →
      ∀ S, WStat.racing S ∈ ws1 →
        (WStat.racing S ∈ ws ∧ t ∉ S) ∨
        (limit ≤ S.length ∧ (∃ r2, eg1 = S ++ r2) ∧ (∃ p2, S = eg ++ p2)) := by
  intro ws
  induction ws with
  | nil =>
    intro idx eg ws1 idx1 eg1 h hle S hS
    rw [resumeAll] at h
    injection h with h1 h2
    subst h1
    simp at hS
  | cons w ws ih =>
    intro idx eg ws1 idx1 eg1 h hle S hS
    cases w with
    | done =>
      rw [resumeAll] at h
      rcases hra : resumeAll n limit t ws idx eg with ⟨ws2, idx2, eg2⟩
      simp only [hra] at h
      injection h with h1 h2
      injection h2 with h2 h3
      subst h1
      subst h2
      subst h3
      rcases List.mem_cons.mp hS with hS0 | hSt
      · exact absurd hS0 (by simp)
      · rcases ih idx eg ws2 idx2 eg2 hra hle S hSt with ⟨hm, hts⟩ | hnew
        · exact Or.inl ⟨List.mem_cons_of_mem _ hm, hts⟩
        · exact Or.inr hnew
    | racing snap =>
      rw [resumeAll] at h
      by_cases ht : t ∈ snap
      · rw [if_pos ht] at h
        rcases hrw : runWorkerAux n limit n idx eg with ⟨w0, idx0, eg0⟩
        rcases hra : resumeAll n limit t ws idx0 eg0 with ⟨ws2, idx2, eg2⟩
        simp only [hrw, hra] at h
        injection h with h1 h2
        injection h2 with h2 h3
        subst h1
        subst h2
        subst h3
        obtain ⟨a0, b0, c0, _, hr0, _⟩ :=
          runWorkerAux_spec n limit n idx eg w0 idx0 eg0 hrw (by omega) hle
        obtain ⟨a, b, c, _⟩ := resumeAll_shape n limit t ws idx0 eg0 ws2 idx2 eg2 hra b0
        rcases List.mem_cons.mp hS with hS0 | hSt
        · obtain ⟨hSeg, hSlen⟩ := hr0 S hS0.symm
          refine Or.inr ⟨by rw [hSeg]; exact hSlen,
            ⟨List.range' idx0 (idx2 - idx0), by rw [c, hSeg]⟩,
            ⟨List.range' idx (idx0 - idx), by rw [hSeg, c0]⟩⟩
        · rcases ih idx0 eg0 ws2 idx2 eg2 hra b0 S hSt with ⟨hm, hts⟩ | ⟨hl, ⟨r2, hr2⟩, ⟨p2, hp2⟩⟩
          · exact Or.inl ⟨List.mem_cons_of_mem _ hm, hts⟩
          · refine Or.inr ⟨hl, ⟨r2, hr2⟩, ?_⟩
            refine ⟨List.range' idx (idx0 - idx) ++ p2, ?_⟩
            rw [hp2, c0, List.append_assoc]
      · rw [if_neg ht] at h
        rcases hra : resumeAll n limit t ws idx eg with ⟨ws2, idx2, eg2⟩
        simp only [hra] at h
        injection h with h1 h2
        injection h2 with h2 h3
        subst h1
        subst h2
        subst h3
        rcases List.mem_cons.mp hS with hS0 | hSt
        · injection hS0 with hS0
          subst hS0
          exact Or.inl ⟨List.mem_cons_self _ _, ht⟩
        · rcases ih idx eg ws2 idx2 eg2 hra hle S hSt with ⟨hm, hts⟩ | hnew
          · exact Or.inl ⟨List.mem_cons_of_mem _ hm, hts⟩
          · exact Or.inr hnew

theorem resumeAll_cover_old (n limit t : Nat) :
    ∀ ws idx eg ws1 idx1 eg1, resumeAll n limit t ws idx eg = (ws1, idx1, eg1) →
      idx ≤ n →
      ∀ u, u ∈ eg → (∃ S0, WStat.racing S0 ∈ ws ∧ u ∈ S0) →
        idx1 = n ∨ ∃ S, WStat.racing S ∈ ws1 ∧ u ∈ S := by
  intro ws
  induction ws with
  | nil =>
    intro idx eg ws1 idx1 eg1 h hle u hu hcov
    rcases hcov with ⟨S0, hS0, _⟩
    simp at hS0
  | cons w ws ih =>
    intro idx eg ws1 idx1 eg1 h hle u hu hcov
    cases w with
    | done =>
      rw [resumeAll] at h
      rcases hra : resumeAll n limit t ws idx eg with ⟨ws2, idx2, eg2⟩
      simp only [hra] at h
      injection h with h1 h2
      injection h2 with h2 h3
      subst h1
      subst h2
      subst h3
      rcases hcov with ⟨S0, hS0, huS0⟩
      rcases List.mem_cons.mp hS0 with hS0h | hS0t
      · exact absurd hS0h (by simp)
      · rcases ih idx eg ws2 idx2 eg2 hra hle u hu ⟨S0, hS0t, huS0⟩ with hn | ⟨S, hS, huS⟩
        · exact Or.inl hn
        · exact Or.inr ⟨S, List.mem_cons_of_mem _ hS, huS⟩
    | racing snap =>
      rw [resumeAll] at h
      by_cases ht : t ∈ snap
      · rw [if_pos ht] at h
        rcases hrw : runWorkerAux n limit n idx eg with ⟨w0, idx0, eg0⟩
        rcases hra : resumeAll n limit t ws idx0 eg0 with ⟨ws2, idx2, eg2⟩
        simp only [hrw, hra] at h
        injection h with h1 h2
        injection h2 with h2 h3
        subst h1
        subst h2
        subst h3
        obtain ⟨a0, b0, c0, hd0, hr0, _⟩ :=
          runWorkerAux_spec n limit n idx eg w0 idx0 eg0 hrw (by omega) hle
        obtain ⟨a, b, _, _⟩ := resumeAll_shape n limit t ws idx0 eg0 ws2 idx2 eg2 hra b0
        cases w0 with
        | done =>
          have := hd0 rfl
          exact Or.inl (by omega)
        | racing S1 =>
          obtain ⟨hSeg, _⟩ := hr0 S1 rfl
          refine Or.inr ⟨S1, List.mem_cons_self _ _, ?_⟩
          rw [hSeg, c0]
          exact List.mem_append_left _ hu
      · rw [if_neg ht] at h
        rcases hra : resumeAll n limit t ws idx eg with ⟨ws2, idx2, eg2⟩
        simp only [hra] at h
        injection h with h1 h2
        injection h2 with h2 h3
        subst h1
        subst h2
        subst h3
        rcases hcov with ⟨S0, hS0, huS0⟩
        rcases List.mem_cons.mp hS0 with hS0h | hS0t
        · injection hS0h with hS0h
          subst hS0h
          exact Or.inr ⟨S0, List.mem_cons_self _ _, huS0⟩
        · rcases ih idx eg ws2 idx2 eg2 hra hle u hu ⟨S0, hS0t, huS0⟩ with hn | ⟨S, hS, huS⟩
          · exact Or.inl hn
          · exact Or.inr ⟨S, List.mem_cons_of_mem _ hS, huS⟩

theorem resumeAll_cover_new (n limit t : Nat) :
    ∀ ws idx eg ws1 idx1 eg1, resumeAll n limit t ws idx eg = (ws1, idx1, eg1) →
      idx ≤ n →
      ∀ u, u ∈ eg1 → u ∉ eg →
        idx1 = n ∨ ∃ S, WStat.racing S ∈ ws1 ∧ u ∈ S := by
  intro ws
  induction ws with
  | nil =>
    intro idx eg ws1 idx1 eg1 h hle u hu1 hu0
    rw [resumeAll] at h
    injection h with h1 h2
    injection h2 with h2 h3
    subst h1
    subst h2
    subst h3
    exact absurd hu1 hu0
  | cons w ws ih =>
    intro idx eg ws1 idx1 eg1 h hle u hu1 hu0
    cases w with
    | done =>
      rw [resumeAll] at h
      rcases hra : resumeAll n limit t ws idx eg with ⟨ws2, idx2, eg2⟩
      simp only [hra] at h
      injection h with h1 h2
      injection h2 with h2 h3
      subst h1
      subst h2
      subst h3
      rcases ih idx eg ws2 idx2 eg2 hra hle u hu1 hu0 with hn | ⟨S, hS, huS⟩
      · exact Or.inl hn
      · exact Or.inr ⟨S, List.mem_cons_of_mem _ hS, huS⟩
    | racing snap =>
      rw [resumeAll] at h
      by_cases ht : t ∈ snap
      · rw [if_pos ht] at h
        rcases hrw : runWorkerAux n limit n idx eg with ⟨w0, idx0, eg0⟩
        rcases hra : resumeAll n limit t ws idx0 eg0 with ⟨ws2, idx2, eg2⟩
        simp only [hrw, hra] at h
        injection h with h1 h2
        injection h2 with h2 h3
        subst h1
        subst h2
        subst h3
        obtain ⟨a0, b0, c0, hd0, hr0, _⟩ :=
          runWorkerAux_spec n limit n idx eg w0 idx0 eg0 hrw (by omega) hle
        obtain ⟨a, b, _, _⟩ := resumeAll_shape n limit t ws idx0 eg0 ws2 idx2 eg2 hra b0
        by_cases hu2 : u ∈ eg0
        · cases w0 with
          | done =>
            have := hd0 rfl
            exact Or.inl (by omega)
          | racing S1 =>
            obtain ⟨hSeg, _⟩ := hr0 S1 rfl
            refine Or.inr ⟨S1, List.mem_cons_self _ _, ?_⟩
            rw [hSeg]
            exact hu2
        · rcases ih idx0 eg0 ws2 idx2 eg2 hra b0 u hu1 hu2 with hn | ⟨S, hS, huS⟩
          · exact Or.inl hn
          · exact Or.inr ⟨S, List.mem_cons_of_mem _ hS, huS⟩
      · rw [if_neg ht] at h
        rcases hra : resumeAll n limit t ws idx eg with ⟨ws2, idx2, eg2⟩
        simp only [hra] at h
        injection h with h1 h2
        injection h2 with h2 h3
        subst h1
        subst h2
        subst h3
        rcases ih idx eg ws2 idx2 eg2 hra hle u hu1 hu0 with hn | ⟨S, hS, huS⟩
        · exact Or.inl hn
        · exact Or.inr ⟨S, List.mem_cons_of_mem _ hS, huS⟩

theorem resumeAll_eager (n limit t : Nat) :
    ∀ ws idx eg ws1 idx1 eg1, resumeAll n limit t ws idx eg = (ws1, idx1, eg1) →
      idx ≤ n → (∃ S, WStat.racing S ∈ ws ∧ t ∈ S) → idx < n → idx < idx1 := by
  intro ws
  induction ws with
  | nil =>
    intro idx eg ws1 idx1 eg1 h hle hex hlt
    rcases hex with ⟨S, hS, _⟩
    simp at hS
  | cons w ws ih =>
    intro idx eg ws1 idx1 eg1 h hle hex hlt
    cases w with
    | done =>
      rw [resumeAll] at h
      rcases hra : resumeAll n limit t ws idx eg with ⟨ws2, idx2, eg2⟩
      simp only [hra] at h
      injection h with h1 h2
      injection h2 with h2 h3
      subst h1
      subst h2
      subst h3
      rcases hex with ⟨S, hS, htS⟩
      rcases List.mem_cons.mp hS with hSh | hSt
      · exact absurd hSh (by simp)
      · exact ih idx eg ws2 idx2 eg2 hra hle ⟨S, hSt, htS⟩ hlt
    | racing snap =>
      rw [resumeAll] at h
      by_cases ht : t ∈ snap
      · rw [if_pos ht] at h
        rcases hrw : runWorkerAux n limit n idx eg with ⟨w0, idx0, eg0⟩
        rcases hra : resumeAll n limit t ws idx0 eg0 with ⟨ws2, idx2, eg2⟩
        simp only [hrw, hra] at h
        injection h with h1 h2
        injection h2 with h2 h3
        subst h1
        subst h2
        subst h3
        obtain ⟨a0, b0, _, _, _, hf0⟩ :=
          runWorkerAux_spec n limit n idx eg w0 idx0 eg0 hrw (by omega) hle
        obtain ⟨a, _, _, _⟩ := resumeAll_shape n limit t ws idx0 eg0 ws2 idx2 eg2 hra b0
        have := hf0 hlt
        omega
      · rw [if_neg ht] at h
        rcases hra : resumeAll n limit t ws idx eg with ⟨ws2, idx2, eg2⟩
        simp only [hra] at h
        injection h with h1 h2
        injection h2 with h2 h3
        subst h1
        subst h2
        subst h3
        rcases hex with ⟨S, hS, htS⟩
        rcases List.mem_cons.mp hS with hSh | hSt
        · injection hSh with hSh
          subst hSh
          exact absurd htS ht
        · exact ih idx eg ws2 idx2 eg2 hra hle ⟨S, hSt, htS⟩ hlt

theorem initWorkers_spec (n limit : Nat) :
    ∀ k idx eg ws1 idx1 eg1, initWorkers n limit k idx eg = (ws1, idx1, eg1) →
      idx ≤ n →
      idx ≤ idx1 ∧ idx1 ≤ n ∧ eg1 = eg ++ List.range' idx (idx1 - idx) ∧
      ws1.length = k ∧
      (∀ w ∈ ws1, w = WStat.done → idx1 = n) ∧
      (∀ S, WStat.racing S ∈ ws1 →
        limit ≤ S.length ∧ (∃ r2, eg1 = S ++ r2) ∧ (∃ p2, S = eg ++ p2)) ∧
      (∀ u, u ∈ eg1 → u ∉ eg →
        idx1 = n ∨ ∃ S, WStat.racing S ∈ ws1 ∧ u ∈ S) := by
  intro k
  induction k with
  | zero =>
    intro idx eg ws1 idx1 eg1 h hle
    rw [initWorkers] at h
    injection h with h1 h2
    injection h2 with h2 h3
    subst h1
    subst h2
    subst h3
    refine ⟨le_rfl, hle, by simp, rfl, by simp, by simp, fun u hu1 hu0 => absurd hu1 hu0⟩
  | succ k ih =>
    intro idx eg ws1 idx1 eg1 h hle
    rw [initWorkers] at h
    rcases hrw : runWorkerAux n limit n idx eg with ⟨w0, idx0, eg0⟩
    rcases hiw : initWorkers n limit k idx0 eg0 with ⟨ws2, idx2, eg2⟩
    simp only [hrw, hiw] at h
    injection h with h1 h2
    injection h2 with h2 h3
    subst h1
    subst h2
    subst h3
    obtain ⟨a0, b0, c0, hd0, hr0, _⟩ :=
      runWorkerAux_spec n limit n idx eg w0 idx0 eg0 hrw (by omega) hle
    obtain ⟨a, b, c, d, he, hf, hg⟩ := ih idx0 eg0 ws2 idx2 eg2 hiw b0
    have hcomp := range'_compose idx (idx0 - idx) (idx2 - idx0)
    have he1 : idx + (idx0 - idx) = idx0 := by omega
    have he2 : idx0 - idx + (idx2 - idx0) = idx2 - idx := by omega
    rw [he1, he2] at hcomp
    refine ⟨by omega, b, by rw [c, c0, List.append_assoc, hcomp], by simp [d], ?_, ?_, ?_⟩
    · intro w hw hwd
      rcases List.mem_cons.mp hw with hwh | hwt
      · subst hwh
        have := hd0 hwd
        omega
      · exact he w hwt hwd
    · intro S hS
      rcases List.mem_cons.mp hS with hSh | hSt
      · obtain ⟨hSeg, hSlen⟩ := hr0 S hSh.symm
        refine ⟨by rw [hSeg]; exact hSlen,
          ⟨List.range' idx0 (idx2 - idx0), by rw [c, hSeg]⟩,
          ⟨List.range' idx (idx0 - idx), by rw [hSeg, c0]⟩⟩
      · obtain ⟨h1, ⟨r2, hr2⟩, ⟨p2, hp2⟩⟩ := hf S hSt
        exact ⟨h1, ⟨r2, hr2⟩,
          ⟨List.range' idx (idx0 - idx) ++ p2, by rw [hp2, c0, List.append_assoc]⟩⟩
    · intro u hu1 hu0
      by_cases hu2 : u ∈ eg0
      · cases w0 with
        | done =>
          have := hd0 rfl
          exact Or.inl (by omega)
        | racing S1 =>
          obtain ⟨hSeg, _⟩ := hr0 S1 rfl
          exact Or.inr ⟨S1, List.mem_cons_self _ _, by rw [hSeg]; exact hu2⟩
      · rcases hg u hu1 hu2 with hn | ⟨S, hS, huS⟩
        · exact Or.inl hn
        · exact Or.inr ⟨S, List.mem_cons_of_mem _ hS, huS⟩

theorem jsStep_inv {α : Type} (f : Nat → Except String α) (n limit p : Nat)
    (s s' : JsState α) (hInv : InvS f n limit s) (hlim : 1 ≤ limit)
    (hne : s.eg ≠ []) (h : jsStep f n limit p s = Except.ok s') :
    InvS f n limit s' ∧ s.idx ≤ s'.idx ∧
      (n - s'.idx) + s'.eg.length + 1 = (n - s.idx) + s.eg.length := by
  have hlen : 0 < s.eg.length := List.length_pos.mpr hne
  have hmod : p % s.eg.length < s.eg.length := Nat.mod_lt _ hlen
  rw [jsStep] at h
  set t := s.eg.getD (p % s.eg.length) 0 with htdef
  have htmem : t ∈ s.eg := by
    rw [htdef, List.getD_eq_getElem s.eg 0 hmod]
    exact List.getElem_mem hmod
  have htlt : t < s.idx := hInv.egLt t htmem
  rcases hft : f t with e | a
  · rw [hft] at h
    exact absurd h (by simp)
  · rw [hft] at h
    rcases hra : resumeAll n limit t s.ws s.idx (s.eg.erase t) with ⟨ws2, idx2, eg3⟩
    simp only [hra] at h
    injection h with h
    subst h
    dsimp only
    obtain ⟨ha, hb, hc, hd⟩ :=
      resumeAll_shape n limit t s.ws s.idx (s.eg.erase t) ws2 idx2 eg3 hra hInv.idxLe
    have hlen_erase : (s.eg.erase t).length = s.eg.length - 1 :=
      List.length_erase_of_mem htmem
    have hmem_erase : ∀ u, u ∈ s.eg.erase t ↔ u ≠ t ∧ u ∈ s.eg :=
      fun u => hInv.egNd.mem_erase_iff
    refine ⟨⟨?_, ?_, ?_, ?_, hb, ?_, ?_, ?_, ?_⟩, ha, ?_⟩
    · simp [List.length_set, hInv.resLen]
    · dsimp only
      intro i hi hni
      by_cases hit : i = t
      · subst hit
        refine ⟨a, hft, ?_⟩
        rw [List.get?_set_eq_of_lt]
        rw [hInv.resLen]
        omega
      · have hni3 : i ∉ s.eg.erase t := by
          intro hmem
          exact hni (by rw [hc]; exact List.mem_append_left _ hmem)
        by_cases hio : i < s.idx
        · have hniold : i ∉ s.eg := by
            intro hmem
            exact hni3 ((hmem_erase i).mpr ⟨hit, hmem⟩)
          obtain ⟨b2, hfb, hres⟩ := hInv.written i hio hniold
          refine ⟨b2, hfb, ?_⟩
          rw [List.get?_set_ne _ _ (fun hEq => hit hEq.symm)]
          exact hres
        · exfalso
          apply hni
          rw [hc]
          apply List.mem_append_right
          rw [List.mem_range'_1]
          omega
    · dsimp only
      intro u hu
      rw [hc] at hu
      rcases List.mem_append.mp hu with hu1 | hu2
      · have := hInv.egLt u (List.mem_of_mem_erase hu1)
        omega
      · rw [List.mem_range'_1] at hu2
        omega
    · rw [hc]
      refine List.Nodup.append (hInv.egNd.erase t) (List.nodup_range' _ _) ?_
      intro u hu1 hu2
      have h1 := hInv.egLt u (List.mem_of_mem_erase hu1)
      rw [List.mem_range'_1] at hu2
      omega
    · rw [hd, hInv.wsLen]
    · exact resumeAll_done n limit t s.ws s.idx (s.eg.erase t) ws2 idx2 eg3 hra
        hInv.idxLe hInv.doneIdx
    · intro S hS
      rcases resumeAll_racing n limit t s.ws s.idx (s.eg.erase t) ws2 idx2 eg3 hra
          hInv.idxLe S hS with ⟨hmem, hts⟩ | ⟨hSlen, ⟨r2, hr2⟩, _⟩
      · obtain ⟨u, huS, hueg⟩ := hInv.racingLive S hmem
        have hut : u ≠ t := fun hEq => hts (hEq ▸ huS)
        refine ⟨u, huS, ?_⟩
        rw [hc]
        exact List.mem_append_left _ ((hmem_erase u).mpr ⟨hut, hueg⟩)
      · cases S with
        | nil => simp at hSlen; omega
        | cons v S2 =>
          refine ⟨v, List.mem_cons_self _ _, ?_⟩
          rw [hr2]
          exact List.mem_append_left _ (List.mem_cons_self _ _)
    · dsimp only
      intro u hu
      by_cases hue : u ∈ s.eg.erase t
      · have huold : u ∈ s.eg := List.mem_of_mem_erase hue
        rcases hInv.cover u huold with hn | ⟨S0, hS0, huS0⟩
        · exact Or.inl (by omega)
        · exact resumeAll_cover_old n limit t s.ws s.idx (s.eg.erase t) ws2 idx2 eg3
            hra hInv.idxLe u hue ⟨S0, hS0, huS0⟩
      · exact resumeAll_cover_new n limit t s.ws s.idx (s.eg.erase t) ws2 idx2 eg3
          hra hInv.idxLe u hu hue
    · dsimp only
      have hlen3 : eg3.length = (s.eg.length - 1) + (idx2 - s.idx) := by
        rw [hc, List.length_append, hlen_erase, List.length_range']
      rw [hlen3]
      have := hInv.idxLe
      omega

theorem jsStep_eager {α : Type} (f : Nat → Except String α) (n limit p : Nat)
    (s s' : JsState α) (hInv : InvS f n limit s) (hne : s.eg ≠ [])
    (hlt : s.idx < n) (h : jsStep f n limit p s = Except.ok s') :
    s.idx < s'.idx := by
  have hlen : 0 < s.eg.length := List.length_pos.mpr hne
  have hmod : p % s.eg.length < s.eg.length := Nat.mod_lt _ hlen
  rw [jsStep] at h
  set t := s.eg.getD (p % s.eg.length) 0 with htdef
  have htmem : t ∈ s.eg := by
    rw [htdef, List.getD_eq_getElem s.eg 0 hmod]
    exact List.getElem_mem hmod
  rcases hft : f t with e | a
  · rw [hft] at h
    exact absurd h (by simp)
  · rw [hft] at h
    rcases hra : resumeAll n limit t s.ws s.idx (s.eg.erase t) with ⟨ws2, idx2, eg3⟩
    simp only [hra] at h
    injection h with h
    subst h
    dsimp only
    rcases hInv.cover t htmem with hn | hex
    · omega
    · exact resumeAll_eager n limit t s.ws s.idx (s.eg.erase t) ws2 idx2 eg3 hra
        hInv.idxLe hex hlt

theorem initState_inv {α : Type} (f : Nat → Except String α) (n limit : Nat)
    (hlim : 1 ≤ limit) : InvS f n limit (initState α n limit) := by
  rcases hiw : initWorkers n limit (min limit n) 0 [] with ⟨ws0, idx0, eg0⟩
  have hstate : initState α n limit = ⟨idx0, eg0, ws0, List.replicate n none⟩ := by
    rw [initState, hiw]
  obtain ⟨_, hb, hc, hd, he, hf, hg⟩ :=
    initWorkers_spec n limit (min limit n) 0 [] ws0 idx0 eg0 hiw (Nat.zero_le n)
  simp only [List.nil_append, Nat.sub_zero] at hc
  rw [hstate]
  refine ⟨?_, ?_, ?_, ?_, ?_, ?_, ?_, ?_, ?_⟩
  · simp
  · dsimp only
    intro i hi hni
    exfalso
    apply hni
    rw [hc, List.mem_range'_1]
    omega
  · dsimp only
    intro u hu
    rw [hc, List.mem_range'_1] at hu
    omega
  · dsimp only
    rw [hc]
    exact List.nodup_range' _ _
  · exact hb
  · exact hd
  · exact he
  · dsimp only
    intro S hS
    obtain ⟨hSlen, ⟨r2, hr2⟩, _⟩ := hf S hS
    cases S with
    | nil => simp at hSlen; omega
    | cons v S2 =>
      refine ⟨v, List.mem_cons_self _ _, ?_⟩
      rw [hr2]
      exact List.mem_cons_self _ _
  · dsimp only
    intro u hu
    exact hg u hu (List.not_mem_nil u)

theorem allDone_true_iff (ws : List WStat) :
    allDone ws = true ↔ ∀ w ∈ ws, w = WStat.done := by
  rw [allDone, List.all_eq_true]
  constructor
  · intro h w hw
    have := h w hw
    cases w with
    | done => rfl
    | racing S => simp at this
  · intro h w hw
    rw [h w hw]

theorem allDone_of_eg_nil {α : Type} {f : Nat → Except String α} {n limit : Nat}
    {s : JsState α} (hInv : InvS f n limit s) (heg : s.eg = []) :
    allDone s.ws = true := by
  rw [allDone_true_iff]
  intro w hw
  cases w with
  | done => rfl
  | racing S =>
    obtain ⟨u, _, hueg⟩ := hInv.racingLive S hw
    rw [heg] at hueg
    simp at hueg

theorem terminal_filled {α : Type} {f : Nat → Except String α} {n limit : Nat}
    {s : JsState α} (hInv : InvS f n limit s) (hlim : 1 ≤ limit)
    (heg : s.eg = []) (hall : allDone s.ws = true) :
    s.res.length = n ∧ ∀ i, i < n → ∃ a, f i = Except.ok a ∧ s.res.get? i = some (some a) := by
  refine ⟨hInv.resLen, fun i hi => ?_⟩
  have hidx : s.idx = n := by
    have hws : s.ws.length = min limit n := hInv.wsLen
    cases hws2 : s.ws with
    | nil =>
      rw [hws2] at hws
      simp only [List.length_nil] at hws
      have := hInv.idxLe
      omega
    | cons w ws2 =>
      have hwd : w = WStat.done := (allDone_true_iff s.ws).mp hall w
        (by rw [hws2]; exact List.mem_cons_self _ _)
      exact hInv.doneIdx w (by rw [hws2]; exact List.mem_cons_self _ _) hwd
  exact hInv.written i (by omega) (by rw [heg]; exact List.not_mem_nil i)

theorem jsGo_sound {α : Type} (f : Nat → Except String α) (n limit : Nat)
    (hlim : 1 ≤ limit) :
    ∀ sched s res, InvS f n limit s → jsGo f n limit sched s = some (.ok res) →
      res.length = n ∧ ∀ i, i < n → ∃ a, f i = Except.ok a ∧ res.get? i = some (some a) := by
  intro sched
  induction sched with
  | nil =>
    intro s res hInv h
    rw [jsGo] at h
    by_cases hcond : s.eg.isEmpty && allDone s.ws
    · rw [if_pos hcond] at h
      injection h with h
      injection h with h
      subst h
      rcases Bool.and_eq_true_iff.mp hcond with ⟨h1, h2⟩
      exact terminal_filled hInv hlim (List.isEmpty_iff.mp h1) h2
    · rw [if_neg hcond] at h
      exact absurd h (by simp)
  | cons p rest ih =>
    intro s res hInv h
    rw [jsGo] at h
    by_cases heg : s.eg.isEmpty
    · rw [if_pos heg] at h
      by_cases hall : allDone s.ws
      · rw [if_pos hall] at h
        injection h with h
        injection h with h
        subst h
        exact terminal_filled hInv hlim (List.isEmpty_iff.mp heg) hall
      · rw [if_neg hall] at h
        exact absurd h (by simp)
    · rw [if_neg heg] at h
      rcases hstep : jsStep f n limit p s with e | s2
      · rw [hstep] at h
        injection h with h
        exact absurd h (by simp)
      · rw [hstep] at h
        have hne : s.eg ≠ [] := fun hEq => heg (by rw [hEq]; rfl)
        obtain ⟨hInv2, _, _⟩ := jsStep_inv f n limit p s s2 hInv hlim hne hstep
        exact ih s2 res hInv2 h

theorem jsStep_ok {α : Type} (f : Nat → Except String α) (n limit p : Nat)
    (s : JsState α) (hInv : InvS f n limit s) (hne : s.eg ≠ [])
    (hok : ∀ i, i < n → ∃ a, f i = Except.ok a) :
    ∃ s2, jsStep f n limit p s = Except.ok s2 := by
  have hlen : 0 < s.eg.length := List.length_pos.mpr hne
  have hmod : p % s.eg.length < s.eg.length := Nat.mod_lt _ hlen
  have htmem : s.eg.getD (p % s.eg.length) 0 ∈ s.eg := by
    rw [List.getD_eq_getElem s.eg 0 hmod]
    exact List.getElem_mem hmod
  have htlt : s.eg.getD (p % s.eg.length) 0 < n := by
    have := hInv.egLt _ htmem
    have := hInv.idxLe
    omega
  obtain ⟨a, hfa⟩ := hok _ htlt
  rcases hstep : jsStep f n limit p s with e | s2
  · exfalso
    rw [jsStep] at hstep
    simp only [hfa] at hstep
    exact absurd hstep (by simp)
  · exact ⟨s2, rfl⟩

theorem jsGo_live {α : Type} (f : Nat → Except String α) (n limit : Nat)
    (hlim : 1 ≤ limit) (hok : ∀ i, i < n → ∃ a, f i = Except.ok a) :
    ∀ sched s, InvS f n limit s → (n - s.idx) + s.eg.length ≤ sched.length →
      ∃ res, jsGo f n limit sched s = some (.ok res) := by
  intro sched
  induction sched with
  | nil =>
    intro s hInv hm
    simp only [List.length_nil, Nat.le_zero, Nat.add_eq_zero] at hm
    have heg : s.eg = [] := List.eq_nil_of_length_eq_zero hm.2
    refine ⟨s.res, ?_⟩
    rw [jsGo, if_pos]
    rw [Bool.and_eq_true_iff]
    exact ⟨List.isEmpty_iff.mpr heg, allDone_of_eg_nil hInv heg⟩
  | cons p rest ih =>
    intro s hInv hm
    by_cases heg : s.eg = []
    · refine ⟨s.res, ?_⟩
      rw [jsGo, if_pos (List.isEmpty_iff.mpr heg), if_pos (allDone_of_eg_nil hInv heg)]
    · obtain ⟨s2, hstep⟩ := jsStep_ok f n limit p s hInv heg hok
      obtain ⟨hInv2, _, hmeas⟩ := jsStep_inv f n limit p s s2 hInv hlim heg hstep
      obtain ⟨res, hres⟩ := ih s2 hInv2 (by simp at hm; omega)
      refine ⟨res, ?_⟩
      rw [jsGo, if_neg (by simpa using heg), hstep]
      exact hres

theorem jsSteps_inv {α : Type} (f : Nat → Except String α) (n limit : Nat)
    (hlim : 1 ≤ limit) :
    ∀ sched s s2, jsSteps f n limit sched s = some s2 → InvS f n limit s →
      InvS f n limit s2 := by
  intro sched
  induction sched with
  | nil =>
    intro s s2 h hInv
    rw [jsSteps] at h
    injection h with h
    subst h
    exact hInv
  | cons p rest ih =>
    intro s s2 h hInv
    rw [jsSteps] at h
    by_cases heg : s.eg.isEmpty
    · rw [if_pos heg] at h
      exact absurd h (by simp)
    · rw [if_neg heg] at h
      rcases hstep : jsStep f n limit p s with e | s3
      · rw [hstep] at h
        exact absurd h (by simp)
      · rw [hstep] at h
        have hne : s.eg ≠ [] := fun hEq => heg (by rw [hEq]; rfl)
        obtain ⟨hInv3, _, _⟩ := jsStep_inv f n limit p s s3 hInv hlim hne hstep
        exact ih s3 s2 h hInv3

theorem initState_measure (α : Type) (n limit : Nat) :
    (n - (initState α n limit).idx) + (initState α n limit).eg.length = n := by
  rcases hiw : initWorkers n limit (min limit n) 0 [] with ⟨ws0, idx0, eg0⟩
  obtain ⟨_, hb, hc, _, _, _, _⟩ :=
    initWorkers_spec n limit (min limit n) 0 [] ws0 idx0 eg0 hiw (Nat.zero_le n)
  have hstate : initState α n limit = ⟨idx0, eg0, ws0, List.replicate n none⟩ := by
    rw [initState, hiw]
  rw [hstate]
  dsimp only
  simp only [List.nil_append, Nat.sub_zero] at hc
  rw [hc, List.length_range']
  omega

/-! ## Batch scheduler lemmas (App.run of the mjs variant) -/

theorem compIdxs_cons_disp (j : Nat) (tr : List Ev) :
    compIdxs (Ev.disp j :: tr) = compIdxs tr := by
  simp [compIdxs]

theorem compIdxs_cons_comp (j : Nat) (tr : List Ev) :
    compIdxs (Ev.comp j :: tr) = j :: compIdxs tr := by
  simp [compIdxs]

theorem setSlots_length {α : Type} (out : Nat → α) :
    ∀ tr res, (setSlots out tr res).length = res.length := by
  intro tr
  induction tr with
  | nil => intro res; rfl
  | cons e tr ih =>
    intro res
    cases e with
    | disp i => rw [setSlots]; exact ih res
    | comp i =>
      rw [setSlots]
      rw [ih (res.set i (some (out i)))]
      exact List.length_set res i _

theorem setSlots_get_of_not_mem {α : Type} (out : Nat → α) :
    ∀ tr res i, i ∉ compIdxs tr → (setSlots out tr res).get? i = res.get? i := by
  intro tr
  induction tr with
  | nil => intro res i _; rfl
  | cons e tr ih =>
    intro res i hi
    cases e with
    | disp j =>
      rw [setSlots]
      exact ih res i (by rwa [compIdxs_cons_disp] at hi)
    | comp j =>
      rw [setSlots]
      rw [compIdxs_cons_comp, List.mem_cons] at hi
      push_neg at hi
      rw [ih _ i hi.2]
      exact List.get?_set_ne _ _ (fun hEq => hi.1 hEq.symm)

theorem setSlots_get_of_mem {α : Type} (out : Nat → α) :
    ∀ tr res i, i ∈ compIdxs tr → i < res.length →
      (setSlots out tr res).get? i = some (some (out i)) := by
  intro tr
  induction tr with
  | nil => intro res i hi _; simp [compIdxs] at hi
  | cons e tr ih =>
    intro res i hi hlt
    cases e with
    | disp j =>
      rw [setSlots]
      exact ih res i (by rwa [compIdxs_cons_disp] at hi) hlt
    | comp j =>
      rw [setSlots]
      by_cases hmem : i ∈ compIdxs tr
      · exact ih _ i hmem (by rw [List.length_set]; exact hlt)
      · have hij : j = i := by
          rw [compIdxs_cons_comp, List.mem_cons] at hi
          rcases hi with h | h
          · exact h.symm
          · exact absurd h hmem
        subst hij
        rw [setSlots_get_of_not_mem out tr _ j hmem]
        exact List.get?_set_eq_of_lt _ hlt

theorem compIdxs_append (t1 t2 : List Ev) :
    compIdxs (t1 ++ t2) = compIdxs t1 ++ compIdxs t2 := by
  simp [compIdxs]

theorem compIdxs_batchTrace (b o : List Nat) : compIdxs (batchTrace b o) = o := by
  rw [batchTrace, compIdxs_append]
  have h1 : compIdxs (b.map Ev.disp) = [] := by
    induction b with
    | nil => rfl
    | cons x xs ih => simpa [compIdxs] using ih
  have h2 : compIdxs (o.map Ev.comp) = o := by
    induction o with
    | nil => rfl
    | cons x xs ih => simpa [compIdxs] using ih
  rw [h1, h2, List.nil_append]

theorem mem_compIdxs_of_valid :
    ∀ os bs, validOrdersAux os bs = true →
      ∀ u, u ∈ bs.flatten → u ∈ compIdxs ((List.zipWith batchTrace bs os).flatten) := by
  intro os
  induction os with
  | nil =>
    intro bs h u hu
    cases bs with
    | nil => simp at hu
    | cons b bs => simp [validOrdersAux] at h
  | cons o os ih =>
    intro bs h u hu
    cases bs with
    | nil => simp [validOrdersAux] at h
    | cons b bs =>
      rw [validOrdersAux, Bool.and_eq_true_iff] at h
      rcases h with ⟨hp, hrest⟩
      have hperm : o.Perm b := of_decide_eq_true hp
      simp only [List.zipWith_cons_cons, List.flatten_cons, compIdxs_append]
      rw [List.mem_append]
      simp only [List.flatten_cons, List.mem_append] at hu
      rcases hu with hub | hurest
      · exact Or.inl (by rw [compIdxs_batchTrace]; exact (hperm.mem_iff).mpr hub)
      · exact Or.inr (ih bs hrest u hurest)

theorem batchesL_flatten (n c : Nat) : (batchesL n c).flatten = List.range n := by
  rw [batchesL]
  exact chunkEvery_flatten c (List.range n)

theorem mjsSlots_spec {α : Type} (out : Nat → α) (n c : Nat)
    (orders : List (List Nat)) (hv : validOrders n c orders = true) :
    (mjsSlots out n (mjsTrace n c orders)).length = n ∧
    ∀ i, i < n → (mjsSlots out n (mjsTrace n c orders)).get? i = some (some (out i)) := by
  constructor
  · rw [mjsSlots, setSlots_length, List.length_replicate]
  · intro i hi
    rw [mjsSlots]
    apply setSlots_get_of_mem
    · rw [mjsTrace]
      apply mem_compIdxs_of_valid orders (batchesL n c) hv
      rw [batchesL_flatten]
      exact List.mem_range.mpr hi
    · rw [List.length_replicate]
      exact hi

theorem chunkEveryAux_mem_length {α : Type} (k : Nat) :
    ∀ fuel (l : List α) p, p ∈ chunkEveryAux k fuel l → p.length ≤ k := by
  intro fuel
  induction fuel with
  | zero => intro l p hp; simp [chunkEveryAux] at hp
  | succ fuel ih =>
    intro l p hp
    cases l with
    | nil => simp [chunkEveryAux] at hp
    | cons a t =>
      rw [chunkEveryAux] at hp
      rcases List.mem_cons.mp hp with h | h
      · rw [h]
        simpa using List.length_take_le k (a :: t)
      · exact ih _ p h

theorem batchesL_mem_length (n c : Nat) (hc : 1 ≤ c) :
    ∀ b ∈ batchesL n c, b.length ≤ c := by
  intro b hb
  have := chunkEveryAux_mem_length (max c 1) (List.range n).length (List.range n) b hb
  omega

theorem okBound_disp (c : Nat) :
    ∀ (b : List Nat) tr k, k + b.length ≤ c →
      okBound c (b.map Ev.disp ++ tr) k = okBound c tr (k + b.length) := by
  intro b
  induction b with
  | nil => intro tr k h; simp
  | cons x xs ih =>
    intro tr k h
    simp only [List.map_cons, List.cons_append, okBound, List.append_eq]
    rw [decide_eq_true (by simp at h; omega : k + 1 ≤ c)]
    rw [Bool.true_and]
    rw [ih tr (k + 1) (by simp at h ⊢; omega)]
    congr 1
    simp
    omega

theorem okBound_comp (c : Nat) :
    ∀ (o : List Nat) tr k,
      okBound c (o.map Ev.comp ++ tr) k = okBound c tr (k - o.length) := by
  intro o
  induction o with
  | nil => intro tr k; simp
  | cons x xs ih =>
    intro tr k
    simp only [List.map_cons, List.cons_append, okBound, List.append_eq]
    rw [ih tr (k - 1)]
    congr 1
    simp
    omega

theorem okBound_mjs (c : Nat) (hc : 1 ≤ c) :
    ∀ os bs, validOrdersAux os bs = true → (∀ b ∈ bs, b.length ≤ c) →
      okBound c ((List.zipWith batchTrace bs os).flatten) 0 = true := by
  intro os
  induction os with
  | nil =>
    intro bs h hlen
    cases bs with
    | nil => rfl
    | cons b bs => simp [validOrdersAux] at h
  | cons o os ih =>
    intro bs h hlen
    cases bs with
    | nil => simp [validOrdersAux] at h
    | cons b bs =>
      rw [validOrdersAux, Bool.and_eq_true_iff] at h
      rcases h with ⟨hp, hrest⟩
      have hperm : o.Perm b := of_decide_eq_true hp
      simp only [List.zipWith_cons_cons, List.flatten_cons]
      rw [batchTrace, List.append_assoc]
      rw [okBound_disp c b _ 0 (by simpa using hlen b (List.mem_cons_self _ _))]
      rw [okBound_comp c o _ (0 + b.length)]
      have hlen2 : 0 + b.length - o.length = 0 := by
        rw [hperm.length_eq]
        omega
      rw [hlen2]
      exact ih bs hrest (fun b2 hb2 => hlen b2 (List.mem_cons_of_mem _ hb2))

/-! ## Scheduler theorems (claims C2, C3, C4) -/

/-- C2: both concurrency schedulers return exactly n outcomes, each stored
at the position of its originating chunk index, for every completion
order.  For runWithConcurrency (js): any terminating run returns a fully
filled results array with slot i holding task i's result, and with
all-successful tasks any completion schedule of length n drives the run to
such a normal return (it returns only once every index has been filled).
For App.run (mjs): for every valid per-batch completion-order permutation,
the results array has length n and slot i holds outcome i. -/
theorem claim_C2_scheduler_preserves_order {α β : Type}
    (g : Nat → Except String α) (fv : Nat → α) (out : Nat → β)
    (n limit c : Nat) (sched : List Nat) (orders : List (List Nat))
    (hlim : 1 ≤ limit) :
    (∀ res, jsRun g n limit sched = some (.ok res) →
      res.length = n ∧ ∀ i, i < n → ∃ a, g i = Except.ok a ∧ res.get? i = some (some a)) ∧
    (n ≤ sched.length →
      ∃ res, jsRun (fun i => Except.ok (fv i)) n limit sched = some (.ok res) ∧
        res.length = n ∧ ∀ i, i < n → res.get? i = some (some (fv i))) ∧
    (validOrders n c orders = true →
      (mjsSlots out n (mjsTrace n c orders)).length = n ∧
      ∀ i, i < n → (mjsSlots out n (mjsTrace n c orders)).get? i = some (some (out i))) := by
  refine ⟨?_, ?_, fun hv => mjsSlots_spec out n c orders hv⟩
  · intro res h
    exact jsGo_sound g n limit hlim sched (initState α n limit) res
      (initState_inv g n limit hlim) h
  · intro hsched
    obtain ⟨res, hres⟩ := jsGo_live (fun i => Except.ok (fv i)) n limit hlim
      (fun i _ => ⟨fv i, rfl⟩) sched (initState α n limit)
      (initState_inv _ n limit hlim)
      (by rw [initState_measure]; exact hsched)
    obtain ⟨hlen, hall⟩ := jsGo_sound (fun i => Except.ok (fv i)) n limit hlim sched
      (initState α n limit) res (initState_inv _ n limit hlim) hres
    refine ⟨res, hres, hlen, fun i hi => ?_⟩
    obtain ⟨a, ha, hget⟩ := hall i hi
    injection ha with ha
    rw [ha]
    exact hget

/-- C2 witness: four tasks, js limit 2 with a concrete four-step schedule,
mjs concurrency 2 with a swapped first batch. -/
theorem claim_C2_scheduler_preserves_order_witness :
    (4 : Nat) ≤ [0, 1, 0, 0].length ∧
    validOrders 4 2 [[1, 0], [2, 3]] = true ∧
    (∃ res, jsRun (fun i => Except.ok (i * 10)) 4 2 [0, 1, 0, 0] = some (.ok res) ∧
      res.length = 4 ∧ ∀ i, i < 4 → res.get? i = some (some (i * 10))) ∧
    (mjsSlots (fun i => i * 10) 4 (mjsTrace 4 2 [[1, 0], [2, 3]])).length = 4 ∧
    (mjsSlots (fun i => i * 10) 4 (mjsTrace 4 2 [[1, 0], [2, 3]])).get? 2 = some (some 20) :=
  ⟨by decide, by decide,
   (claim_C2_scheduler_preserves_order (fun i => Except.ok (i * 10)) (fun i => i * 10)
      (fun i => i * 10) 4 2 2 [0, 1, 0, 0] [[1, 0], [2, 3]] (by decide)).2.1 (by decide),
   ((claim_C2_scheduler_preserves_order (fun i => Except.ok (i * 10)) (fun i => i * 10)
      (fun i => i * 10) 4 2 2 [0, 1, 0, 0] [[1, 0], [2, 3]] (by decide)).2.2 (by decide)).1,
   ((claim_C2_scheduler_preserves_order (fun i => Except.ok (i * 10)) (fun i => i * 10)
      (fun i => i * 10) 4 2 2 [0, 1, 0, 0] [[1, 0], [2, 3]] (by decide)).2.2 (by decide)).2
     2 (by decide)⟩

/-- C3 counterexample: the claim fails on both variants.  In the js
variant the in-flight cap is not enforced: with 3 tasks and limit 2 the
spawning loop alone puts 3 tasks in flight (worker 0 starts tasks 0 and 1
before suspending, worker 1 starts task 2 before its own limit check).  In
the mjs variant a completed chunk is not replaced while its batch is still
running: for 3 chunks at limit 2 with completion order 0 then 1, chunk 2
is not dispatched after chunk 0 completes (the trace is not
eager-dispatch). -/
theorem claim_C3_counterexample :
    (initState Bool 3 2).eg.length = 3 ∧
    ¬((initState Bool 3 2).eg.length ≤ 2) ∧
    validOrders 3 2 [[0, 1], [2]] = true ∧
    eagerOk 3 (mjsTrace 3 2 [[0, 1], [2]]) 0 = false := by
  decide

/-- C3 (amended): the mjs variant keeps at most c chunk pipelines in
flight at every instant, but dispatches batch-wise rather than eagerly;
the js variant dispatches eagerly (every completion that leaves
undispatched tasks strictly advances the dispatch counter in the same
step), but its in-flight count is not bounded by the limit: the spawning
loop already puts min(n, 2 x limit - 1) tasks in flight (3 tasks at limit
2). -/
theorem claim_C3_inflight_and_dispatch {α : Type} (f : Nat → Except String α)
    (n limit c p : Nat) (sched : List Nat) (s s2 : JsState α)
    (orders : List (List Nat)) (hlim : 1 ≤ limit) (hc : 1 ≤ c) :
    (validOrders n c orders = true → okBound c (mjsTrace n c orders) 0 = true) ∧
    (jsSteps f n limit sched (initState α n limit) = some s → s.idx < n →
      jsStep f n limit p s = Except.ok s2 → s.idx < s2.idx) ∧
    (initState Bool 3 2).eg.length = 3 := by
  refine ⟨fun hv => okBound_mjs c hc orders (batchesL n c) hv (batchesL_mem_length n c hc),
    ?_, by decide⟩
  intro hsteps hlt hstep
  have hInv := jsSteps_inv f n limit hlim sched _ s hsteps (initState_inv f n limit hlim)
  have hne : s.eg ≠ [] := by
    intro heg
    have hall := allDone_of_eg_nil hInv heg
    have hws := hInv.wsLen
    cases hws2 : s.ws with
    | nil =>
      rw [hws2] at hws
      simp only [List.length_nil] at hws
      omega
    | cons w ws2 =>
      have hwd : w = WStat.done := (allDone_true_iff s.ws).mp hall w
        (by rw [hws2]; exact List.mem_cons_self _ _)
      have := hInv.doneIdx w (by rw [hws2]; exact List.mem_cons_self _ _) hwd
      omega
  exact jsStep_eager f n limit p s s2 hInv hne hlt hstep

/-- C3 witness: concrete instances of all three amended conjuncts. -/
theorem claim_C3_inflight_and_dispatch_witness :
    validOrders 4 2 [[0, 1], [2, 3]] = true ∧
    okBound 2 (mjsTrace 4 2 [[0, 1], [2, 3]]) 0 = true ∧
    (∃ s2, jsStep (fun i => Except.ok i) 5 2 0 (initState Nat 5 2) = Except.ok s2 ∧
      (initState Nat 5 2).idx < s2.idx) :=
  ⟨by decide,
   (claim_C3_inflight_and_dispatch (fun i => Except.ok i) 4 2 2 0 [] (initState Nat 4 2)
      (initState Nat 4 2) [[0, 1], [2, 3]] (by decide) (by decide)).1 (by decide),
   ⟨_, rfl,
    (claim_C3_inflight_and_dispatch (fun i => Except.ok i) 5 2 2 0 [] (initState Nat 5 2)
      _ [] (by decide) (by decide)).2.1 rfl (by decide) rfl⟩⟩

/-- C4 counterexample: in the js variant a single chunk's unrecoverable
failure does halt the run: with two chunks where only chunk 0's pipeline
fails, the scheduler's promise rejects (no per-chunk catch), the Fatal
Error handler runs, and the process exits 1 — no error marker is stored
and the other chunk's result is discarded. -/
theorem claim_C4_counterexample :
    jsChunkTask oOneFail "B" = Except.ok "訳" ∧
    jsRun (fun i => jsChunkTask oOneFail (["A", "B"].getD i "")) 2 4 [0, 0] =
      some (.error "boom") ∧
    jsCatchWrap (jsRun (fun i => jsChunkTask oOneFail (["A", "B"].getD i "")) 2 4 [0, 0]) =
      (RunResult.exited 1, [Effect.errLine "Fatal Error: boom"]) :=
  ⟨rfl, rfl, rfl⟩

/-- C4 (amended): in the mjs variant a chunk whose task fails
unrecoverably gets the error marker stored at its own index while every
successful chunk keeps its own outcome at its index (isolation, run
completes); in the js variant a run containing a failing task never
returns a normal result — the failure propagates out of
runWithConcurrency into the Fatal Error handler (exit 1). -/
theorem claim_C4_failure_isolation_mjs_fatal_js {α : Type}
    (task : Nat → Except String MjsChunkOut) (f : Nat → Except String α)
    (n c limit k : Nat) (orders : List (List Nat)) (sched : List Nat) (e : String)
    (hlim : 1 ≤ limit) (hk : k < n) :
    (validOrders n c orders = true → task k = .error e →
      (mjsSlots (mjsOutcome task) n (mjsTrace n c orders)).get? k =
        some (some MjsSlot.errMark) ∧
      ∀ j r, j < n → task j = Except.ok r →
        (mjsSlots (mjsOutcome task) n (mjsTrace n c orders)).get? j =
          some (some (MjsSlot.ok r))) ∧
    (f k = .error e → ∀ res, jsRun f n limit sched ≠ some (.ok res)) := by
  constructor
  · intro hv htk
    obtain ⟨_, hget⟩ := mjsSlots_spec (mjsOutcome task) n c orders hv
    refine ⟨?_, fun j r hj hfj => ?_⟩
    · rw [hget k hk]
      simp [mjsOutcome, htk]
    · rw [hget j hj]
      simp [mjsOutcome, hfj]
  · intro hfk res h
    obtain ⟨_, hall⟩ := jsGo_sound f n limit hlim sched _ res
      (initState_inv f n limit hlim) h
    obtain ⟨a, hfa, _⟩ := hall k hk
    rw [hfk] at hfa
    exact Except.noConfusion hfa

/-- C4 witness: three chunks, chunk 1 failing; the mjs slots isolate the
failure while the js run never returns normally. -/
theorem claim_C4_failure_isolation_mjs_fatal_js_witness :
    ((mjsSlots (mjsOutcome fun g => if g = 1 then .error "x" else .ok ⟨"d", "c", "r"⟩) 3
        (mjsTrace 3 2 [[0, 1], [2]])).get? 1 = some (some MjsSlot.errMark) ∧
      (mjsSlots (mjsOutcome fun g => if g = 1 then .error "x" else .ok ⟨"d", "c", "r"⟩) 3
        (mjsTrace 3 2 [[0, 1], [2]])).get? 0 = some (some (MjsSlot.ok ⟨"d", "c", "r"⟩))) ∧
    jsRun (fun i => if i = 1 then Except.error "x" else Except.ok (7 : Nat)) 3 2 [0] ≠
      some (.ok [some 7, none, none]) :=
  ⟨⟨((claim_C4_failure_isolation_mjs_fatal_js
        (fun g => if g = 1 then .error "x" else .ok ⟨"d", "c", "r"⟩)
        (fun i => if i = 1 then Except.error "x" else Except.ok (7 : Nat))
        3 2 2 1 [[0, 1], [2]] [0] "x" (by decide) (by decide)).1 (by decide) rfl).1,
    ((claim_C4_failure_isolation_mjs_fatal_js
        (fun g => if g = 1 then .error "x" else .ok ⟨"d", "c", "r"⟩)
        (fun i => if i = 1 then Except.error "x" else Except.ok (7 : Nat))
        3 2 2 1 [[0, 1], [2]] [0] "x" (by decide) (by decide)).1 (by decide) rfl).2
      0 ⟨"d", "c", "r"⟩ (by decide) rfl⟩,
   (claim_C4_failure_isolation_mjs_fatal_js
      (fun g => if g = 1 then .error "x" else .ok ⟨"d", "c", "r"⟩)
      (fun i => if i = 1 then Except.error "x" else Except.ok (7 : Nat))
      3 2 2 1 [[0, 1], [2]] [0] "x" (by decide) (by decide)).2 rfl
     [some 7, none, none]⟩
